import Mathlib

/-!
Verification of the HierarchicalKV concurrent bucketed hash table
(nv::merlin), against `include/merlin/types.cuh` and the accompanying
design document.

The repository snapshot contains only the type declarations
(`Bucket`, `Table`, `EraseIfPredictInternal`, `BaseKVFile`); the kernels
implementing `insert_or_assign`, `erase`, `erase_if`, `find`, `save`,
`load` and `reserve` are not part of the snapshot.  Those operations are
therefore modelled from the design document (sections 3, 4.2, 4.3, 4.5
and 6) on top of the types translated from `types.cuh`.  Machine
integers (`uint64_t` keys and metas) are modelled as `Nat`; none of the
modelled operations performs wrapping arithmetic on keys, and metas are
only compared and incremented, so the embedding is faithful on the
reachable range.
-/

namespace MerlinKV

/-- Source `types.cuh` line 30: `constexpr uint64_t EMPTY_KEY = 0xFFFFFFFFFFFFFFFF`,
the all-ones free-slot sentinel. -/
def EMPTY_KEY : Nat := 2 ^ 64 - 1

/-- Source `types.cuh` line 31: `constexpr uint64_t MAX_META = 0xFFFFFFFFFFFFFFFF`. -/
def MAX_META : Nat := 2 ^ 64 - 1

/-- Source `types.cuh` line 32: `constexpr uint64_t EMPTY_META = 0lu`. -/
def EMPTY_META : Nat := 0

/-- One storage slot of a bucket.  The source keeps three parallel
arrays `keys`, `metas`, `vectors`; a list of records with one field per
array is the same data indexed the same way.  The `DIM`-wide vector
payload is abstracted to a single value, as no modelled operation looks
inside it. -/
structure Slot where
  key : Nat
  meta : Nat
  val : Nat
deriving DecidableEq, Repr

/-- A freshly initialised slot: sentinel key, `EMPTY_META`, zeroed value. -/
def emptySlot : Slot := ⟨EMPTY_KEY, EMPTY_META, 0⟩

/-- Pair every slot with its index, starting from `n`. -/
def enumFrom : Nat → List Slot → List (Nat × Slot)
  | _, [] => []
  | n, s :: rest => (n, s) :: enumFrom (n + 1) rest

/-- The occupied slots (key is not the sentinel) paired with their
indices, indices starting from `n`. -/
def occListFrom (n : Nat) (l : List Slot) : List (Nat × Slot) :=
  (enumFrom n l).filter (fun p => p.2.key ≠ EMPTY_KEY)

/-- The occupied slots of a bucket's slot array, with their indices. -/
def occList (l : List Slot) : List (Nat × Slot) :=
  occListFrom 0 l

/-- Scan of the indexed occupied slots recording the minimum meta and
its position; ties keep the earliest position, matching a forward scan
with a strict comparison.  Returns `none` when there is no occupied
slot. -/
def bucketMin : List (Nat × Slot) → Option (Nat × Nat)
  | [] => none
  | (i, s) :: rest =>
    match bucketMin rest with
    | none => some (s.meta, i)
    | some (mm, mp) => if s.meta ≤ mm then some (s.meta, i) else some (mm, mp)

/-- The mathematical minimum of the metas of the occupied slots,
`MAX_META` when the bucket is empty (design doc section 3: the
empty-bucket convention). -/
def trueMinMeta (l : List Slot) : Nat :=
  match (occList l).map (fun p => p.2.meta) with
  | [] => MAX_META
  | x :: xs => xs.foldl Nat.min x

/-- Source `types.cuh` lines 34-51, `struct Bucket`.  The parallel
device arrays become `slots`; `cur_meta`, `min_meta` and `min_pos` are
the bookkeeping scalars of the source struct (the source declares
`min_pos` as `int`; it is always a non-negative slot index). -/
structure Bucket where
  slots : List Slot
  cur_meta : Nat
  min_meta : Nat
  min_pos : Nat
deriving DecidableEq, Repr

/-- Modelled from the spec: the mandatory recompute of the cached
minimum (design doc section 4.3 step 4): scan all occupied slots, store
the minimum meta and one position achieving it; an empty bucket gets the
`MAX_META` sentinel.  The corresponding kernel helper is not in the
source snapshot. -/
def refresh_bucket_meta (b : Bucket) : Bucket :=
  match bucketMin (occList b.slots) with
  | none => { b with min_meta := MAX_META, min_pos := 0 }
  | some (mm, mp) => { b with min_meta := mm, min_pos := mp }

/-- First slot holding key `k`, scanning in slot order. -/
def findEntry (k : Nat) : List Slot → Option Slot
  | [] => none
  | s :: rest => if s.key = k then some s else findEntry k rest

/-- Index of the first slot holding key `k`. -/
def firstKeyIdx (k : Nat) : List Slot → Option Nat
  | [] => none
  | s :: rest => if s.key = k then some 0 else (firstKeyIdx k rest).map (· + 1)

/-- Mark slot `i` free by writing the sentinel key, keeping the meta and
value bytes in place (out-of-range indices are a no-op). -/
def clearAt (l : List Slot) (i : Nat) : List Slot :=
  match l[i]? with
  | none => l
  | some s => l.set i { s with key := EMPTY_KEY }

/-- Overwrite the meta of slot `i` (out-of-range indices are a no-op). -/
def setMetaAt (l : List Slot) (i : Nat) (m : Nat) : List Slot :=
  match l[i]? with
  | none => l
  | some s => l.set i { s with meta := m }

/-- Per-key outcome of an insertion (design doc sections 6 and 7:
accepted as update, accepted as fresh insert, accepted by evicting the
minimum-meta entry, or rejected by the eviction policy). -/
inductive InsertResult where
  | assigned
  | inserted
  | evicted
  | rejected
deriving DecidableEq, Repr

/-- Modelled from the spec: `insert_or_assign` on one bucket (design doc
section 4.3; the upsert kernels are not in the source snapshot).
Step 1: an existing slot with this key is overwritten (meta defaults to
a fresh draw from `cur_meta`, which then increments).  Step 2: otherwise
a free slot is occupied.  Step 3: otherwise the bucket is full: with no
caller meta the slot at `min_pos` is always evicted with meta
`cur_meta`; with a caller meta the entry is stored at `min_pos` if the
meta is not smaller than `min_meta` and rejected otherwise.  Step 4:
every mutating branch ends with the mandatory recompute of the cached
minimum.  The sentinel key is reserved and never stored. -/
def insert_or_assign (b : Bucket) (k v : Nat) (m? : Option Nat) : Bucket × InsertResult :=
  if k = EMPTY_KEY then (b, .rejected)
  else
    match firstKeyIdx k b.slots with
    | some i =>
      match m? with
      | some m => (refresh_bucket_meta { b with slots := b.slots.set i ⟨k, m, v⟩ }, .assigned)
      | none =>
        (refresh_bucket_meta
          { b with slots := b.slots.set i ⟨k, b.cur_meta, v⟩, cur_meta := b.cur_meta + 1 },
         .assigned)
    | none =>
      match firstKeyIdx EMPTY_KEY b.slots with
      | some j =>
        match m? with
        | some m => (refresh_bucket_meta { b with slots := b.slots.set j ⟨k, m, v⟩ }, .inserted)
        | none =>
          (refresh_bucket_meta
            { b with slots := b.slots.set j ⟨k, b.cur_meta, v⟩, cur_meta := b.cur_meta + 1 },
           .inserted)
      | none =>
        match m? with
        | none =>
          (refresh_bucket_meta
            { b with slots := b.slots.set b.min_pos ⟨k, b.cur_meta, v⟩,
                     cur_meta := b.cur_meta + 1 },
           .evicted)
        | some m =>
          if m < b.min_meta then (b, .rejected)
          else (refresh_bucket_meta { b with slots := b.slots.set b.min_pos ⟨k, m, v⟩ }, .evicted)

/-- Clear slot `i` and, exactly when the erased slot was the cached
minimum position, recompute the cached minimum (design doc section 4.3,
`erase`). -/
def eraseSlotAt (b : Bucket) (i : Nat) : Bucket :=
  let b' : Bucket := { b with slots := clearAt b.slots i }
  if i = b.min_pos then refresh_bucket_meta b' else b'

/-- Modelled from the spec: `erase` on one bucket (design doc section
4.3; the erase kernel is not in the source snapshot).  The sentinel key
is never erased. -/
def erase (b : Bucket) (k : Nat) : Bucket × Bool :=
  if k = EMPTY_KEY then (b, false)
  else
    match firstKeyIdx k b.slots with
    | none => (b, false)
    | some i => (eraseSlotAt b i, true)

/-- Modelled from the spec: `find` on one bucket (design doc section
4.3): scan for a matching non-sentinel key; return the slot's value and
meta. -/
def find (b : Bucket) (k : Nat) : Option (Nat × Nat) :=
  if k = EMPTY_KEY then none
  else (findEntry k b.slots).map (fun s => (s.val, s.meta))

/-- Source `types.cuh` lines 78-84: the erase-if predicate type.  The
source passes the iterated meta by non-const reference (`M& meta`), so a
predicate may write the stored meta; this is modelled by returning the
(possibly updated) meta alongside the boolean decision. -/
def EraseIfPredictInternal : Type := Nat → Nat → Nat → Nat → Bool × Nat

/-- Modelled from the spec: the slot loop of `erase_if` (design doc
section 4.3).  For each occupied slot the predicate is evaluated on the
slot's key and meta; the meta it hands back is stored (the reference
write-through of the source predicate type); when the decision is true
the slot is erased exactly as `erase` would.  Recursion over the
remaining step count `n`, visiting slot `i` next. -/
def eraseIfGo (pred : EraseIfPredictInternal) (pat thr : Nat) :
    Nat → Nat → Bucket × Nat → Bucket × Nat
  | 0, _, acc => acc
  | n + 1, i, (b, c) =>
    match b.slots[i]? with
    | none => (b, c)
    | some s =>
      if s.key = EMPTY_KEY then eraseIfGo pred pat thr n (i + 1) (b, c)
      else
        let r := pred s.key s.meta pat thr
        let b₁ : Bucket := { b with slots := setMetaAt b.slots i r.2 }
        if r.1 then eraseIfGo pred pat thr n (i + 1) (eraseSlotAt b₁ i, c + 1)
        else eraseIfGo pred pat thr n (i + 1) (b₁, c)

/-- Modelled from the spec: bulk conditional erase on one bucket,
returning the surviving bucket and the number of entries removed. -/
def erase_if (pred : EraseIfPredictInternal) (pat thr : Nat) (b : Bucket) : Bucket × Nat :=
  eraseIfGo pred pat thr b.slots.length 0 (b, 0)

/-- The keys of the occupied slots on which the predicate currently
answers true, in slot order. -/
def matchingKeys (pred : EraseIfPredictInternal) (pat thr : Nat) (b : Bucket) : List Nat :=
  ((occList b.slots).filter (fun p => (pred p.2.key p.2.meta pat thr).1)).map
    (fun p => p.2.key)

/-- The indexed occupied slots that the `erase_if` loop starting at
slot `i` with `n` remaining steps would find matching: the same scan as
`eraseIfGo`, recording the matched entries instead of erasing them. -/
def matchedGo (pred : EraseIfPredictInternal) (pat thr : Nat) :
    Nat → Nat → List Slot → List (Nat × Slot)
  | 0, _, _ => []
  | n + 1, i, l =>
    match l[i]? with
    | none => []
    | some s =>
      if s.key = EMPTY_KEY then matchedGo pred pat thr n (i + 1) l
      else if (pred s.key s.meta pat thr).1 then (i, s) :: matchedGo pred pat thr n (i + 1) l
      else matchedGo pred pat thr n (i + 1) l

/-- Slot `i` of a bucket, defaulting to a free slot out of range. -/
def slotAt (b : Bucket) (i : Nat) : Slot :=
  b.slots.getD i emptySlot

/-- The cached-minimum invariant (design doc sections 3 and 8):
`min_meta` is the true minimum meta over occupied slots (`MAX_META` for
an empty bucket) and, when some slot is occupied, `min_pos` indexes an
occupied slot achieving it. -/
def BucketInv (b : Bucket) : Prop :=
  b.min_meta = trueMinMeta b.slots ∧
  (occList b.slots ≠ [] →
    b.min_pos < b.slots.length ∧
    (slotAt b b.min_pos).key ≠ EMPTY_KEY ∧
    (slotAt b b.min_pos).meta = b.min_meta)

instance (b : Bucket) : Decidable (BucketInv b) := by
  unfold BucketInv; infer_instance

/-- Well-formedness of a bucket (design doc section 3): no duplicate
non-sentinel keys. -/
def BucketWF (b : Bucket) : Prop :=
  ((occList b.slots).map (fun p => p.2.key)).Nodup

instance (b : Bucket) : Decidable (BucketWF b) := by
  unfold BucketWF; infer_instance

/-- A bucket of `L` freshly initialised slots. -/
def emptyBucket (L : Nat) : Bucket :=
  { slots := List.replicate L emptySlot, cur_meta := 0, min_meta := MAX_META, min_pos := 0 }

/-- Source `types.cuh` lines 55-76, `struct Table`, with the in-class
initialisers of the source carried over as field defaults
(`capacity = 134217728`, `max_size = std::numeric_limits<uint64_t>::max()`,
`bucket_max_size = 128`, `max_hbm_for_vectors = 0`).  The bucket array
pointer becomes the list `buckets` (so `buckets_num` is its length); the
externally supplied hash-to-bucket mapping (design doc section 4.2) is
the `hashFn` field; the memory-slice bookkeeping fields carry no
key-value semantics and are omitted. -/
structure Table where
  hashFn : Nat → Nat
  buckets : List Bucket
  capacity : Nat := 134217728
  max_size : Nat := 2 ^ 64 - 1
  bucket_max_size : Nat := 128
  max_hbm_for_vectors : Nat := 0

/-- The bucket a key is routed to: hash modulo the number of buckets
(design doc section 4.2). -/
def bucketIdx (t : Table) (k : Nat) : Nat :=
  t.hashFn k % t.buckets.length

/-- Modelled from the spec: per-key table insertion dispatching to the
key's bucket (design doc section 4.2). -/
def tableInsert (t : Table) (k v : Nat) (m? : Option Nat) : Table × InsertResult :=
  match t.buckets[bucketIdx t k]? with
  | none => (t, .rejected)
  | some b =>
    ({ t with buckets := t.buckets.set (bucketIdx t k) (insert_or_assign b k v m?).1 },
     (insert_or_assign b k v m?).2)

/-- Modelled from the spec: per-key table lookup. -/
def tableFind (t : Table) (k : Nat) : Option (Nat × Nat) :=
  match t.buckets[bucketIdx t k]? with
  | none => none
  | some b => find b k

/-- Modelled from the spec: per-key table erase. -/
def tableErase (t : Table) (k : Nat) : Table × Bool :=
  match t.buckets[bucketIdx t k]? with
  | none => (t, false)
  | some b =>
    ({ t with buckets := t.buckets.set (bucketIdx t k) (erase b k).1 }, (erase b k).2)

/-- Modelled from the spec: bulk conditional erase over every bucket,
returning the table and the total number of entries removed. -/
def tableEraseIf (pred : EraseIfPredictInternal) (pat thr : Nat) (t : Table) : Table × Nat :=
  ({ t with buckets := t.buckets.map (fun b => (erase_if pred pat thr b).1) },
   (t.buckets.map (fun b => (erase_if pred pat thr b).2)).sum)

/-- All keys over the whole table whose occupied slot currently
satisfies the erase-if predicate, in bucket-then-slot order. -/
def tableMatchingKeys (pred : EraseIfPredictInternal) (pat thr : Nat) (t : Table) : List Nat :=
  (t.buckets.map (fun b => matchingKeys pred pat thr b)).flatten

/-- The occupied entries of one bucket, in slot order. -/
def dumpBucket (b : Bucket) : List Slot :=
  (occList b.slots).map (fun p => p.2)

/-- Modelled from the spec: `save` streams all occupied (key, value,
meta) entries out through the persistence adapter (design doc sections
4.5 and 6); the stream is the bucket-by-bucket dump. -/
def tableSave (t : Table) : List Slot :=
  (t.buckets.map dumpBucket).flatten

/-- Modelled from the spec: `load` streams entries in and inserts each
one through the normal insertion path, metas preserved (design doc
section 6). -/
def tableLoad (t : Table) (es : List Slot) : Table :=
  es.foldl (fun t e => (tableInsert t e.key e.val (some e.meta)).1) t

/-- The per-bucket restriction of the load path: fold the entries
destined for one bucket through `insert_or_assign`, metas preserved. -/
def bucketLoad (b : Bucket) (es : List Slot) : Bucket :=
  es.foldl (fun b e => (insert_or_assign b e.key e.val (some e.meta)).1) b

/-- An empty table with the same configuration (hash mapping, bucket
count, bucket capacity) as `t`. -/
def emptyTableLike (t : Table) : Table :=
  { t with buckets := t.buckets.map (fun _ => emptyBucket t.bucket_max_size) }

/-- Number of occupied slots over the whole table. -/
def occupiedCount (t : Table) : Nat :=
  (t.buckets.map (fun b => (occList b.slots).length)).sum

/-- Modelled from the spec: `reserve` (design doc section 4.2).  Growth
past `max_size` fails and leaves the table untouched; a request within
the current capacity is a no-op; otherwise the bucket count doubles, a
fresh generation of buckets is allocated, `capacity` is restored to
`buckets_num * bucket_max_size`, and every occupied entry is rehashed
into the new generation through the normal insertion path. -/
def reserve (t : Table) (newCap : Nat) : Table :=
  if t.max_size < newCap then t
  else if newCap ≤ t.capacity then t
  else
    let t0 : Table :=
      { t with
        buckets := List.replicate (2 * t.buckets.length) (emptyBucket t.bucket_max_size),
        capacity := 2 * t.buckets.length * t.bucket_max_size }
    tableLoad t0 (tableSave t)

/-- Table well-formedness: every bucket is well formed and sized
`bucket_max_size`, and every occupied key lives in the bucket its hash
routes it to. -/
def TableWF (t : Table) : Prop :=
  (∀ b ∈ t.buckets, BucketWF b ∧ b.slots.length = t.bucket_max_size) ∧
  (∀ i < t.buckets.length, ∀ p ∈ occList ((t.buckets.getD i (emptyBucket 0)).slots),
    t.hashFn p.2.key % t.buckets.length = i)

instance (t : Table) : Decidable (TableWF t) := by
  unfold TableWF
  infer_instance

/-! ### Concrete fixtures used by the closed witness theorems -/

/-- A full two-slot bucket satisfying the cached-minimum invariant. -/
def wbFull : Bucket :=
  { slots := [⟨1, 5, 10⟩, ⟨2, 7, 20⟩], cur_meta := 9, min_meta := 5, min_pos := 0 }

/-- A half-full two-slot bucket satisfying the cached-minimum invariant. -/
def wbHalf : Bucket :=
  { slots := [⟨1, 5, 10⟩, emptySlot], cur_meta := 9, min_meta := 5, min_pos := 0 }

/-- A two-bucket table with identity hashing, both buckets half full. -/
def wtSmall : Table :=
  { hashFn := fun k => k,
    buckets :=
      [{ slots := [⟨2, 5, 10⟩, emptySlot], cur_meta := 9, min_meta := 5, min_pos := 0 },
       { slots := [⟨3, 6, 30⟩, emptySlot], cur_meta := 9, min_meta := 6, min_pos := 0 }],
    capacity := 4,
    max_size := 1024,
    bucket_max_size := 2 }

/-- A predicate of the source type that mutates the meta it receives by
reference while declining the erase. -/
def bumpMetaPred : EraseIfPredictInternal :=
  fun _ m _ _ => (false, m + 1)

/-- A meta-preserving predicate: erase exactly the slots whose meta is
below the threshold. -/
def belowThresholdPred : EraseIfPredictInternal :=
  fun _ m _ thr => (decide (m < thr), m)

/-! ### The per-bucket lock protocol

Source `types.cuh` line 53 declares one `Mutex`
(`cuda::binary_semaphore<cuda::thread_scope_device>`) per bucket
(`Table::locks`, line 58).  The kernels that acquire and release these
semaphores are not in the source snapshot; the protocol is modelled from
the design document (sections 4.1 and 5) as an interleaved transition
system: one logical operation (a thread or one cooperating thread-group)
targets a single bucket, spins until that bucket's semaphore is
available, flips it in one atomic step, works, and releases it. -/

/-- Modelled from the spec: the phase of one logical operation: idle,
spinning to acquire one bucket's lock, or inside the critical section
holding it. -/
inductive ThreadPhase where
  | idle
  | waiting (bk : Nat)
  | critical (bk : Nat)
deriving DecidableEq

/-- Modelled from the spec: global state of the lock protocol: each
bucket's binary semaphore (`true` meaning available) and each logical
operation's phase. -/
structure LockSys where
  sem : Nat → Bool
  thr : Nat → ThreadPhase

/-- All semaphores released, all operations idle. -/
def initLockSys : LockSys :=
  { sem := fun _ => true, thr := fun _ => ThreadPhase.idle }

/-- Modelled from the spec: the interleaved small-step transitions of
the lock protocol: an idle operation picks a bucket; a waiting operation
acquires the semaphore only when it is available, flipping it in the
same atomic step; a holder releases it when the operation completes. -/
inductive LockStep : LockSys → LockSys → Prop where
  | request (s : LockSys) (t bk : Nat) :
      s.thr t = ThreadPhase.idle →
      LockStep s { s with thr := fun u => if u = t then ThreadPhase.waiting bk else s.thr u }
  | acquire (s : LockSys) (t bk : Nat) :
      s.thr t = ThreadPhase.waiting bk → s.sem bk = true →
      LockStep s
        { sem := fun c => if c = bk then false else s.sem c,
          thr := fun u => if u = t then ThreadPhase.critical bk else s.thr u }
  | release (s : LockSys) (t bk : Nat) :
      s.thr t = ThreadPhase.critical bk →
      LockStep s
        { sem := fun c => if c = bk then true else s.sem c,
          thr := fun u => if u = t then ThreadPhase.idle else s.thr u }

/-- States reachable from the initial state. -/
inductive LockReachable : LockSys → Prop where
  | init : LockReachable initLockSys
  | step {s s' : LockSys} : LockReachable s → LockStep s s' → LockReachable s'

/-- The semaphore invariant of the lock protocol: an available
semaphore has no holder, an unavailable one has a holder, and each
bucket has at most one holder. -/
def LockInv (s : LockSys) : Prop :=
  ∀ bk : Nat,
    (s.sem bk = true → ∀ t, s.thr t ≠ ThreadPhase.critical bk) ∧
    (s.sem bk = false → ∃ t, s.thr t = ThreadPhase.critical bk) ∧
    (∀ t u, s.thr t = ThreadPhase.critical bk → s.thr u = ThreadPhase.critical bk → t = u)

/-! ### Basic facts about slot enumeration and the occupied-slot list -/

theorem enumFrom_length (n : Nat) (l : List Slot) : (enumFrom n l).length = l.length := by
  induction l generalizing n with
  | nil => rfl
  | cons s rest ih => simp [enumFrom, ih]

theorem mem_enumFrom {p : Nat × Slot} :
    ∀ {n : Nat} {l : List Slot}, p ∈ enumFrom n l → n ≤ p.1 ∧ l[p.1 - n]? = some p.2 := by
  intro n l
  induction l generalizing n with
  | nil => intro h; simp [enumFrom] at h
  | cons s rest ih =>
    intro h
    simp only [enumFrom, List.mem_cons] at h
    rcases h with h | h
    · subst h
      exact ⟨Nat.le_refl n, by simp⟩
    · obtain ⟨h1, h2⟩ := ih h
      refine ⟨Nat.le_of_succ_le h1, ?_⟩
      have hd : p.1 - n = (p.1 - (n + 1)) + 1 := by omega
      rw [hd, List.getElem?_cons_succ]
      exact h2

theorem enumFrom_mem_of_getElem? :
    ∀ {l : List Slot} {j : Nat} {s : Slot}, l[j]? = some s → ∀ n, (n + j, s) ∈ enumFrom n l := by
  intro l
  induction l with
  | nil => intro j s h; simp at h
  | cons a rest ih =>
    intro j s h n
    cases j with
    | zero =>
      simp at h
      subst h
      simp [enumFrom]
    | succ j =>
      simp only [List.getElem?_cons_succ] at h
      have := ih h (n + 1)
      simp only [enumFrom, List.mem_cons]
      right
      have harith : n + 1 + j = n + (j + 1) := by omega
      rw [← harith]
      exact this

theorem mem_occListFrom {p : Nat × Slot} {n : Nat} {l : List Slot} :
    p ∈ occListFrom n l ↔ (n ≤ p.1 ∧ l[p.1 - n]? = some p.2) ∧ p.2.key ≠ EMPTY_KEY := by
  constructor
  · intro h
    simp only [occListFrom, List.mem_filter, decide_eq_true_eq] at h
    exact ⟨mem_enumFrom h.1, h.2⟩
  · rintro ⟨⟨h1, h2⟩, h3⟩
    simp only [occListFrom, List.mem_filter, decide_eq_true_eq]
    refine ⟨?_, h3⟩
    have := enumFrom_mem_of_getElem? h2 n
    have harith : n + (p.1 - n) = p.1 := by omega
    rw [harith] at this
    exact (by cases p; exact this)

theorem mem_occList {i : Nat} {s : Slot} {l : List Slot} :
    (i, s) ∈ occList l ↔ l[i]? = some s ∧ s.key ≠ EMPTY_KEY := by
  unfold occList
  rw [mem_occListFrom]
  simp

theorem occListFrom_ge {n : Nat} {l : List Slot} : ∀ p ∈ occListFrom n l, n ≤ p.1 := by
  intro p hp
  exact (mem_occListFrom.1 hp).1.1

theorem occList_nonempty_of_occupied {l : List Slot} {i : Nat} {s : Slot}
    (h : l[i]? = some s) (hk : s.key ≠ EMPTY_KEY) : occList l ≠ [] := by
  intro hnil
  have : (i, s) ∈ occList l := mem_occList.2 ⟨h, hk⟩
  rw [hnil] at this
  simp at this

/-! ### The scan for the minimum meta -/

theorem bucketMin_eq_none {l : List (Nat × Slot)} : bucketMin l = none ↔ l = [] := by
  cases l with
  | nil => simp [bucketMin]
  | cons p rest =>
    obtain ⟨i, s⟩ := p
    simp only [bucketMin]
    cases h : bucketMin rest with
    | none => simp
    | some q =>
      obtain ⟨mm, mp⟩ := q
      by_cases hle : s.meta ≤ mm <;> simp [hle]

theorem bucketMin_mem {l : List (Nat × Slot)} {mm mp : Nat}
    (h : bucketMin l = some (mm, mp)) : ∃ s, (mp, s) ∈ l ∧ s.meta = mm := by
  induction l with
  | nil => simp [bucketMin] at h
  | cons p rest ih =>
    obtain ⟨i, s⟩ := p
    simp only [bucketMin] at h
    cases hr : bucketMin rest with
    | none =>
      rw [hr] at h
      simp only [Option.some.injEq, Prod.mk.injEq] at h
      exact ⟨s, by simp [← h.2], h.1⟩
    | some q =>
      obtain ⟨mm', mp'⟩ := q
      rw [hr] at h
      by_cases hle : s.meta ≤ mm'
      · simp only [hle, if_pos, Option.some.injEq, Prod.mk.injEq] at h
        exact ⟨s, by simp [← h.2], h.1⟩
      · simp only [hle, if_neg, if_false, Option.some.injEq, Prod.mk.injEq] at h
        obtain ⟨t, ht, hm⟩ := ih (by rw [hr, h.1, h.2])
        exact ⟨t, List.mem_cons_of_mem _ ht, hm⟩

theorem bucketMin_le {l : List (Nat × Slot)} :
    ∀ {mm mp : Nat}, bucketMin l = some (mm, mp) → ∀ q ∈ l, mm ≤ q.2.meta := by
  induction l with
  | nil => intro mm mp h; simp [bucketMin] at h
  | cons p rest ih =>
    obtain ⟨i, s⟩ := p
    intro mm mp h q hq
    simp only [bucketMin] at h
    cases hr : bucketMin rest with
    | none =>
      have hrest : rest = [] := bucketMin_eq_none.1 hr
      subst hrest
      rw [hr] at h
      simp only [Option.some.injEq, Prod.mk.injEq] at h
      simp at hq
      subst hq
      show mm ≤ s.meta
      omega
    | some w =>
      obtain ⟨mm', mp'⟩ := w
      rw [hr] at h
      rcases List.mem_cons.1 hq with hq | hq
      · subst hq
        show mm ≤ s.meta
        by_cases hle : s.meta ≤ mm' <;> simp [hle] at h <;> omega
      · have hle' := ih hr q hq
        by_cases hle : s.meta ≤ mm' <;> simp [hle] at h <;> omega

theorem bucketMin_filter_ne {l : List (Nat × Slot)} {mm mp j : Nat}
    (h : bucketMin l = some (mm, mp)) (hj : mp ≠ j) :
    bucketMin (l.filter (fun p => p.1 ≠ j)) = some (mm, mp) := by
  induction l with
  | nil => simp [bucketMin] at h
  | cons p rest ih =>
    obtain ⟨i, s⟩ := p
    simp only [bucketMin] at h
    by_cases hij : i = j
    · subst hij
      rw [List.filter_cons_of_neg (by simp)]
      cases hr : bucketMin rest with
      | none =>
        rw [hr] at h
        simp only [Option.some.injEq, Prod.mk.injEq] at h
        exact absurd h.2.symm hj
      | some w =>
        obtain ⟨mm', mp'⟩ := w
        rw [hr] at h
        by_cases hle : s.meta ≤ mm'
        · simp only [hle, if_pos, Option.some.injEq, Prod.mk.injEq] at h
          exact absurd h.2.symm hj
        · simp only [hle, if_neg, if_false, Option.some.injEq, Prod.mk.injEq] at h
          obtain ⟨rfl, rfl⟩ := h
          exact ih hr
    · rw [List.filter_cons_of_pos (by simp [hij])]
      simp only [bucketMin]
      cases hr : bucketMin rest with
      | none =>
        have hrest : rest = [] := bucketMin_eq_none.1 hr
        subst hrest
        rw [hr] at h
        simpa [bucketMin] using h
      | some w =>
        obtain ⟨mm', mp'⟩ := w
        rw [hr] at h
        by_cases hle : s.meta ≤ mm'
        · simp only [hle, if_pos, Option.some.injEq, Prod.mk.injEq] at h
          cases hfr : bucketMin (rest.filter (fun p => p.1 ≠ j)) with
          | none => simpa using h
          | some u =>
            obtain ⟨mm'', mp''⟩ := u
            obtain ⟨t, ht, hmt⟩ := bucketMin_mem hfr
            have ht' : (mp'', t) ∈ rest := (List.mem_filter.1 ht).1
            have h1 : mm' ≤ t.meta := bucketMin_le hr (mp'', t) ht'
            have h2 : s.meta ≤ mm'' := by omega
            simp only [h2, if_pos, Option.some.injEq, Prod.mk.injEq]
            exact ⟨h.1, h.2⟩
        · simp only [hle, if_neg, if_false, Option.some.injEq, Prod.mk.injEq] at h
          obtain ⟨rfl, rfl⟩ := h
          rw [ih hr]
          simp [hle]

/-! ### The true minimum and its relation to the scan -/

theorem foldlMin_le : ∀ (xs : List Nat) (x : Nat), ∀ y ∈ x :: xs, xs.foldl Nat.min x ≤ y := by
  intro xs
  induction xs with
  | nil =>
    intro x y hy
    simp at hy
    subst hy
    exact Nat.le_refl _
  | cons a xs ih =>
    intro x y hy
    simp only [List.foldl_cons]
    have hbase : xs.foldl Nat.min (Nat.min x a) ≤ Nat.min x a :=
      ih (Nat.min x a) (Nat.min x a) (List.mem_cons_self _ _)
    rcases List.mem_cons.1 hy with hy' | hy'
    · subst hy'
      exact Nat.le_trans hbase (Nat.min_le_left _ _)
    · rcases List.mem_cons.1 hy' with hy'' | hy''
      · subst hy''
        exact Nat.le_trans hbase (Nat.min_le_right _ _)
      · exact ih (Nat.min x a) y (List.mem_cons_of_mem _ hy'')

theorem foldlMin_mem : ∀ (xs : List Nat) (x : Nat), xs.foldl Nat.min x ∈ x :: xs := by
  intro xs
  induction xs with
  | nil => intro x; simp
  | cons a xs ih =>
    intro x
    simp only [List.foldl_cons]
    have hmem := ih (Nat.min x a)
    rcases List.mem_cons.1 hmem with h | h
    · have hif : Nat.min x a = if x ≤ a then x else a := rfl
      have hor : Nat.min x a = x ∨ Nat.min x a = a := by
        rw [hif]
        split
        · exact Or.inl rfl
        · exact Or.inr rfl
      rw [h]
      rcases hor with hh | hh <;> rw [hh] <;> simp
    · exact List.mem_cons_of_mem _ (List.mem_cons_of_mem _ h)

theorem trueMinMeta_le_of_mem {l : List Slot} {q : Nat × Slot} (h : q ∈ occList l) :
    trueMinMeta l ≤ q.2.meta := by
  unfold trueMinMeta
  cases hm : (occList l).map (fun p => p.2.meta) with
  | nil =>
    exfalso
    have : q.2.meta ∈ (occList l).map (fun p => p.2.meta) := List.mem_map_of_mem _ h
    rw [hm] at this
    simp at this
  | cons x xs =>
    have : q.2.meta ∈ (occList l).map (fun p => p.2.meta) := List.mem_map_of_mem _ h
    rw [hm] at this
    exact foldlMin_le xs x _ this

theorem trueMinMeta_mem {l : List Slot} (h : occList l ≠ []) :
    ∃ q ∈ occList l, trueMinMeta l = q.2.meta := by
  unfold trueMinMeta
  cases hm : (occList l).map (fun p => p.2.meta) with
  | nil =>
    exact absurd (List.map_eq_nil_iff.1 hm) h
  | cons x xs =>
    have hmem : xs.foldl Nat.min x ∈ (occList l).map (fun p => p.2.meta) := by
      rw [hm]; exact foldlMin_mem xs x
    obtain ⟨q, hq, hqm⟩ := List.mem_map.1 hmem
    exact ⟨q, hq, hqm.symm⟩

theorem trueMinMeta_of_bucketMin_none {l : List Slot}
    (h : bucketMin (occList l) = none) : trueMinMeta l = MAX_META := by
  have he : occList l = [] := bucketMin_eq_none.1 h
  unfold trueMinMeta
  rw [he]
  rfl

theorem trueMinMeta_of_bucketMin_some {l : List Slot} {mm mp : Nat}
    (h : bucketMin (occList l) = some (mm, mp)) : trueMinMeta l = mm := by
  have hne : occList l ≠ [] := by
    intro he
    rw [he] at h
    simp [bucketMin] at h
  obtain ⟨s, hs, hsm⟩ := bucketMin_mem h
  have h1 : trueMinMeta l ≤ s.meta := trueMinMeta_le_of_mem hs
  obtain ⟨q, hq, hqm⟩ := trueMinMeta_mem hne
  have h2 : mm ≤ q.2.meta := bucketMin_le h q hq
  omega

/-! ### The recompute establishes the cached-minimum invariant -/

theorem refresh_slots (b : Bucket) : (refresh_bucket_meta b).slots = b.slots := by
  unfold refresh_bucket_meta
  cases h : bucketMin (occList b.slots) with
  | none => rfl
  | some q => obtain ⟨mm, mp⟩ := q; rfl

theorem refresh_cur_meta (b : Bucket) : (refresh_bucket_meta b).cur_meta = b.cur_meta := by
  unfold refresh_bucket_meta
  cases h : bucketMin (occList b.slots) with
  | none => rfl
  | some q => obtain ⟨mm, mp⟩ := q; rfl

theorem bucketInv_refresh (b : Bucket) : BucketInv (refresh_bucket_meta b) := by
  unfold BucketInv refresh_bucket_meta
  cases h : bucketMin (occList b.slots) with
  | none =>
    constructor
    · exact (trueMinMeta_of_bucketMin_none h).symm
    · intro hne
      exact absurd (bucketMin_eq_none.1 h) hne
  | some q =>
    obtain ⟨mm, mp⟩ := q
    constructor
    · exact (trueMinMeta_of_bucketMin_some h).symm
    · intro _
      obtain ⟨s, hs, hsm⟩ := bucketMin_mem h
      obtain ⟨hget, hkey⟩ := mem_occList.1 hs
      obtain ⟨hlt, hval⟩ := List.getElem?_eq_some_iff.1 hget
      refine ⟨hlt, ?_, ?_⟩
      · show (slotAt { b with min_meta := mm, min_pos := mp } mp).key ≠ EMPTY_KEY
        unfold slotAt
        simp only [List.getD_eq_getElem?_getD, hget]
        exact hkey
      · show (slotAt { b with min_meta := mm, min_pos := mp } mp).meta = mm
        unfold slotAt
        simp only [List.getD_eq_getElem?_getD, hget]
        exact hsm

/-! ### Slot surgery: clearing and overwriting one slot -/

theorem length_clearAt (l : List Slot) (i : Nat) : (clearAt l i).length = l.length := by
  unfold clearAt
  cases h : l[i]? <;> simp

theorem getElem?_clearAt_ne (l : List Slot) {i j : Nat} (h : i ≠ j) :
    (clearAt l i)[j]? = l[j]? := by
  unfold clearAt
  cases hg : l[i]? with
  | none => rfl
  | some s => exact List.getElem?_set_ne h

theorem getElem?_clearAt_self {l : List Slot} {i : Nat} {s : Slot} (h : l[i]? = some s) :
    (clearAt l i)[i]? = some { s with key := EMPTY_KEY } := by
  unfold clearAt
  rw [h]
  have hlt : i < l.length := (List.getElem?_eq_some_iff.1 h).1
  simp [List.getElem?_set_self hlt]

theorem clearAt_cons_zero (s : Slot) (rest : List Slot) :
    clearAt (s :: rest) 0 = { s with key := EMPTY_KEY } :: rest := by
  unfold clearAt
  simp [List.getElem?_cons_zero]

theorem clearAt_cons_succ (s : Slot) (rest : List Slot) (i : Nat) :
    clearAt (s :: rest) (i + 1) = s :: clearAt rest i := by
  unfold clearAt
  simp only [List.getElem?_cons_succ]
  cases h : rest[i]? with
  | none => rfl
  | some t => rfl

theorem enumFrom_cons (n : Nat) (s : Slot) (rest : List Slot) :
    enumFrom n (s :: rest) = (n, s) :: enumFrom (n + 1) rest := rfl

theorem occListFrom_cons (n : Nat) (s : Slot) (rest : List Slot) :
    occListFrom n (s :: rest) =
      if s.key = EMPTY_KEY then occListFrom (n + 1) rest
      else (n, s) :: occListFrom (n + 1) rest := by
  unfold occListFrom
  rw [enumFrom_cons, List.filter_cons]
  by_cases h : s.key = EMPTY_KEY <;> simp [h]

theorem occListFrom_filter_lt {n j : Nat} (l : List Slot) (h : j < n) :
    (occListFrom n l).filter (fun p => p.1 ≠ j) = occListFrom n l := by
  rw [List.filter_eq_self]
  intro p hp
  have := occListFrom_ge p hp
  simp only [decide_eq_true_eq]
  omega

theorem occListFrom_clearAt :
    ∀ (l : List Slot) (n i : Nat),
      occListFrom n (clearAt l i) = (occListFrom n l).filter (fun p => p.1 ≠ n + i) := by
  intro l
  induction l with
  | nil => intro n i; simp [clearAt, occListFrom, enumFrom]
  | cons s rest ih =>
    intro n i
    cases i with
    | zero =>
      rw [clearAt_cons_zero, occListFrom_cons, occListFrom_cons]
      have hck : ({ s with key := EMPTY_KEY } : Slot).key = EMPTY_KEY := rfl
      rw [if_pos hck]
      by_cases h : s.key = EMPTY_KEY
      · rw [if_pos h]
        exact (occListFrom_filter_lt rest (by omega)).symm
      · rw [if_neg h, List.filter_cons]
        have hd : (decide ((n, s).1 ≠ n + 0)) = false :=
          decide_eq_false (by show ¬n ≠ n + 0; omega)
        rw [hd]
        simp only [Bool.false_eq_true, if_false]
        exact (occListFrom_filter_lt rest (by omega)).symm
    | succ i =>
      rw [clearAt_cons_succ, occListFrom_cons, occListFrom_cons]
      by_cases h : s.key = EMPTY_KEY
      · rw [if_pos h, if_pos h, ih (n + 1) i]
        have harith : n + 1 + i = n + (i + 1) := by omega
        rw [harith]
      · rw [if_neg h, if_neg h, List.filter_cons]
        have hd : (decide ((n, s).1 ≠ n + (i + 1))) = true :=
          decide_eq_true (by show n ≠ n + (i + 1); omega)
        rw [hd]
        simp only [if_pos]
        rw [ih (n + 1) i]
        have harith : n + 1 + i = n + (i + 1) := by omega
        rw [harith]

theorem occList_clearAt (l : List Slot) (i : Nat) :
    occList (clearAt l i) = (occList l).filter (fun p => p.1 ≠ i) := by
  unfold occList
  rw [occListFrom_clearAt]
  simp

/-! ### First-index search -/

theorem firstKeyIdx_some {k : Nat} :
    ∀ {l : List Slot} {i : Nat}, firstKeyIdx k l = some i →
      ∃ s, l[i]? = some s ∧ s.key = k := by
  intro l
  induction l with
  | nil => intro i h; simp [firstKeyIdx] at h
  | cons s rest ih =>
    intro i h
    unfold firstKeyIdx at h
    by_cases hk : s.key = k
    · rw [if_pos hk] at h
      cases h
      exact ⟨s, by simp, hk⟩
    · rw [if_neg hk] at h
      cases hfi : firstKeyIdx k rest with
      | none => rw [hfi] at h; simp at h
      | some j =>
        rw [hfi] at h
        simp at h
        obtain ⟨t, ht, htk⟩ := ih hfi
        subst h
        exact ⟨t, by simpa using ht, htk⟩

theorem firstKeyIdx_none {k : Nat} :
    ∀ {l : List Slot}, firstKeyIdx k l = none ↔ ∀ s ∈ l, s.key ≠ k := by
  intro l
  induction l with
  | nil => simp [firstKeyIdx]
  | cons s rest ih =>
    unfold firstKeyIdx
    by_cases hk : s.key = k
    · simp [hk]
    · rw [if_neg hk]
      constructor
      · intro h t ht
        have hrest : firstKeyIdx k rest = none := by
          cases hfi : firstKeyIdx k rest with
          | none => rfl
          | some j => rw [hfi] at h; simp at h
        rcases List.mem_cons.1 ht with rfl | ht'
        · exact hk
        · exact ih.1 hrest t ht'
      · intro h
        have hres : firstKeyIdx k rest = none :=
          ih.2 (fun t ht => h t (List.mem_cons_of_mem _ ht))
        rw [hres]
        rfl

theorem firstKeyIdx_lt_of_lt {k : Nat} :
    ∀ {l : List Slot} {i : Nat}, firstKeyIdx k l = some i →
      ∀ j < i, ∃ s, l[j]? = some s ∧ s.key ≠ k := by
  intro l
  induction l with
  | nil => intro i h; simp [firstKeyIdx] at h
  | cons s rest ih =>
    intro i h j hj
    unfold firstKeyIdx at h
    by_cases hk : s.key = k
    · rw [if_pos hk] at h
      cases h
      omega
    · rw [if_neg hk] at h
      cases hfi : firstKeyIdx k rest with
      | none => rw [hfi] at h; simp at h
      | some m =>
        rw [hfi] at h
        simp at h
        subst h
        cases j with
        | zero => exact ⟨s, by simp, hk⟩
        | succ j =>
          obtain ⟨t, ht, htk⟩ := ih hfi j (by omega)
          exact ⟨t, by simpa using ht, htk⟩

/-! ### Clearing a non-minimum slot keeps the cached-minimum invariant -/

theorem slotAt_spec {b : Bucket} {i : Nat} (h : i < b.slots.length) :
    b.slots[i]? = some (slotAt b i) := by
  unfold slotAt
  rw [List.getD_eq_getElem?_getD, List.getElem?_eq_getElem h]
  rfl

theorem bucketInv_clear_nonmin {b : Bucket} {i : Nat} {s : Slot}
    (hInv : BucketInv b) (hget : b.slots[i]? = some s) (hocc : s.key ≠ EMPTY_KEY)
    (hne : i ≠ b.min_pos) : BucketInv { b with slots := clearAt b.slots i } := by
  have hneOcc : occList b.slots ≠ [] := occList_nonempty_of_occupied hget hocc
  obtain ⟨hmin1, hmin2⟩ := hInv
  obtain ⟨hlt, hkey, hmeta⟩ := hmin2 hneOcc
  have hs₀ : b.slots[b.min_pos]? = some (slotAt b b.min_pos) := slotAt_spec hlt
  have hs₀occ : (b.min_pos, slotAt b b.min_pos) ∈ occList b.slots :=
    mem_occList.2 ⟨hs₀, hkey⟩
  have hs₀clear : (b.min_pos, slotAt b b.min_pos) ∈ occList (clearAt b.slots i) := by
    refine mem_occList.2 ⟨?_, hkey⟩
    rw [getElem?_clearAt_ne _ hne]
    exact hs₀
  have hclearNe : occList (clearAt b.slots i) ≠ [] := by
    intro hnil
    rw [hnil] at hs₀clear
    simp at hs₀clear
  have htm : trueMinMeta (clearAt b.slots i) = b.min_meta := by
    have hle : trueMinMeta (clearAt b.slots i) ≤ (slotAt b b.min_pos).meta :=
      trueMinMeta_le_of_mem hs₀clear
    obtain ⟨q, hq, hqm⟩ := trueMinMeta_mem hclearNe
    have hq' : q ∈ occList b.slots := by
      rw [occList_clearAt] at hq
      exact (List.mem_filter.1 hq).1
    have hge : trueMinMeta b.slots ≤ q.2.meta := trueMinMeta_le_of_mem hq'
    omega
  constructor
  · show b.min_meta = trueMinMeta (clearAt b.slots i)
    omega
  · intro _
    refine ⟨?_, ?_, ?_⟩
    · show b.min_pos < (clearAt b.slots i).length
      rw [length_clearAt]
      exact hlt
    · show (List.getD (clearAt b.slots i) b.min_pos emptySlot).key ≠ EMPTY_KEY
      rw [List.getD_eq_getElem?_getD, getElem?_clearAt_ne _ hne, hs₀]
      exact hkey
    · show (List.getD (clearAt b.slots i) b.min_pos emptySlot).meta = b.min_meta
      rw [List.getD_eq_getElem?_getD, getElem?_clearAt_ne _ hne, hs₀]
      exact hmeta

/-! ### Claim C1: the cached-minimum invariant is maintained -/

/-- C1: for every bucket, `min_meta` equals the minimum of the metas of
the occupied slots with `min_pos` an occupied index achieving it
(`MAX_META` when the bucket is empty), and every `insert_or_assign`
(covering both fresh inserts and updates of an existing key) and every
`erase` re-establishes this invariant. -/
theorem bucket_min_meta_invariant_preserved (b : Bucket) (k v : Nat) (m? : Option Nat)
    (hInv : BucketInv b) :
    BucketInv (insert_or_assign b k v m?).1 ∧ BucketInv (erase b k).1 := by
  constructor
  · by_cases hk : k = EMPTY_KEY
    · simp only [insert_or_assign, if_pos hk]
      exact hInv
    · cases hfi : firstKeyIdx k b.slots with
      | some i =>
        cases m? with
        | some m =>
          simp only [insert_or_assign, if_neg hk, hfi]
          exact bucketInv_refresh _
        | none =>
          simp only [insert_or_assign, if_neg hk, hfi]
          exact bucketInv_refresh _
      | none =>
        cases hfe : firstKeyIdx EMPTY_KEY b.slots with
        | some j =>
          cases m? with
          | some m =>
            simp only [insert_or_assign, if_neg hk, hfi, hfe]
            exact bucketInv_refresh _
          | none =>
            simp only [insert_or_assign, if_neg hk, hfi, hfe]
            exact bucketInv_refresh _
        | none =>
          cases m? with
          | none =>
            simp only [insert_or_assign, if_neg hk, hfi, hfe]
            exact bucketInv_refresh _
          | some m =>
            by_cases hm : m < b.min_meta
            · simp only [insert_or_assign, if_neg hk, hfi, hfe, if_pos hm]
              exact hInv
            · simp only [insert_or_assign, if_neg hk, hfi, hfe, if_neg hm]
              exact bucketInv_refresh _
  · by_cases hk : k = EMPTY_KEY
    · simp only [erase, if_pos hk]
      exact hInv
    · cases hfi : firstKeyIdx k b.slots with
      | none =>
        simp only [erase, if_neg hk, hfi]
        exact hInv
      | some i =>
        simp only [erase, if_neg hk, hfi]
        show BucketInv (eraseSlotAt b i)
        obtain ⟨s, hs, hsk⟩ := firstKeyIdx_some hfi
        unfold eraseSlotAt
        split
        · exact bucketInv_refresh _
        · rename_i hne
          exact bucketInv_clear_nonmin hInv hs (by rw [hsk]; exact hk) hne

/-- Closed witness for C1 at a concrete bucket. -/
theorem bucket_min_meta_invariant_preserved_witness :
    BucketInv wbFull ∧
      (BucketInv (insert_or_assign wbFull 2 3 none).1 ∧ BucketInv (erase wbFull 2).1) :=
  ⟨by decide, bucket_min_meta_invariant_preserved wbFull 2 3 none (by decide)⟩

/-! ### Lookup after overwriting one slot -/

theorem findEntry_eq_none_iff {k : Nat} :
    ∀ {l : List Slot}, findEntry k l = none ↔ ∀ s ∈ l, s.key ≠ k := by
  intro l
  induction l with
  | nil => simp [findEntry]
  | cons s rest ih =>
    unfold findEntry
    by_cases hk : s.key = k
    · simp [hk]
    · rw [if_neg hk, ih]
      constructor
      · intro h t ht
        rcases List.mem_cons.1 ht with rfl | ht'
        · exact hk
        · exact h t ht'
      · intro h t ht
        exact h t (List.mem_cons_of_mem _ ht)

theorem findEntry_set_unique :
    ∀ {l : List Slot} {i : Nat} {t : Slot}, i < l.length → (∀ s ∈ l, s.key ≠ t.key) →
      findEntry t.key (l.set i t) = some t := by
  intro l
  induction l with
  | nil => intro i t hi; simp at hi
  | cons s rest ih =>
    intro i t hi habs
    cases i with
    | zero =>
      show findEntry t.key (t :: rest) = some t
      unfold findEntry
      rw [if_pos rfl]
    | succ i =>
      show findEntry t.key (s :: rest.set i t) = some t
      unfold findEntry
      rw [if_neg (habs s (List.mem_cons_self _ _))]
      exact ih (by simpa using hi) (fun u hu => habs u (List.mem_cons_of_mem _ hu))

/-- Two occupied slots with the same key sit at the same index when the
bucket has no duplicate keys. -/
theorem occKey_unique {l : List Slot}
    (hWF : ((occList l).map (fun p => p.2.key)).Nodup)
    {i j : Nat} {s t : Slot}
    (hi : l[i]? = some s) (hj : l[j]? = some t)
    (hsi : s.key ≠ EMPTY_KEY) (htj : t.key ≠ EMPTY_KEY)
    (hkey : s.key = t.key) : i = j := by
  have hmi : (i, s) ∈ occList l := mem_occList.2 ⟨hi, hsi⟩
  have hmj : (j, t) ∈ occList l := mem_occList.2 ⟨hj, htj⟩
  have := List.inj_on_of_nodup_map hWF hmi hmj hkey
  exact congrArg Prod.fst this

/-! ### Claim C2: insertion into a full bucket evicts the minimum -/

/-- C2: inserting a key absent from its full bucket evicts exactly the
entry at `min_pos` (whose meta is the true minimum): with no caller meta
the new entry receives `cur_meta` (which then increments), and with a
caller meta that is not smaller than `min_meta` the new entry receives
that meta; in both cases only the `min_pos` slot changes, the new key is
findable with the new meta, and the evicted key is no longer findable. -/
theorem full_bucket_insert_evicts_min (b : Bucket) (k v : Nat)
    (hInv : BucketInv b) (hWF : BucketWF b)
    (hfull : ∀ s ∈ b.slots, s.key ≠ EMPTY_KEY)
    (habs : ∀ s ∈ b.slots, s.key ≠ k)
    (hk : k ≠ EMPTY_KEY) (hlen : 0 < b.slots.length) :
    ((insert_or_assign b k v none).2 = .evicted ∧
      (insert_or_assign b k v none).1.slots = b.slots.set b.min_pos ⟨k, b.cur_meta, v⟩ ∧
      (insert_or_assign b k v none).1.cur_meta = b.cur_meta + 1 ∧
      find (insert_or_assign b k v none).1 k = some (v, b.cur_meta) ∧
      find (insert_or_assign b k v none).1 (slotAt b b.min_pos).key = none) ∧
    (∀ m, b.min_meta ≤ m →
      (insert_or_assign b k v (some m)).2 = .evicted ∧
      (insert_or_assign b k v (some m)).1.slots = b.slots.set b.min_pos ⟨k, m, v⟩ ∧
      (insert_or_assign b k v (some m)).1.cur_meta = b.cur_meta ∧
      find (insert_or_assign b k v (some m)).1 k = some (v, m) ∧
      find (insert_or_assign b k v (some m)).1 (slotAt b b.min_pos).key = none) ∧
    (slotAt b b.min_pos).key ≠ EMPTY_KEY ∧
    (slotAt b b.min_pos).meta = trueMinMeta b.slots := by
  have hfi : firstKeyIdx k b.slots = none := firstKeyIdx_none.2 habs
  have hfe : firstKeyIdx EMPTY_KEY b.slots = none := firstKeyIdx_none.2 hfull
  have hs0 : ∃ s0, b.slots[0]? = some s0 := by
    cases hg : b.slots[0]? with
    | none =>
      rw [List.getElem?_eq_none_iff] at hg
      omega
    | some s0 => exact ⟨s0, rfl⟩
  obtain ⟨s0, hs0⟩ := hs0
  have hneOcc : occList b.slots ≠ [] :=
    occList_nonempty_of_occupied hs0 (hfull s0 (List.getElem?_mem hs0))
  obtain ⟨hmm, hmp⟩ := hInv
  obtain ⟨hplt, hpkey, hpmeta⟩ := hmp hneOcc
  have hpget : b.slots[b.min_pos]? = some (slotAt b b.min_pos) := slotAt_spec hplt
  have hpm : (slotAt b b.min_pos) ∈ b.slots := List.getElem?_mem hpget
  have holdne : (slotAt b b.min_pos).key ≠ k := habs _ hpm
  -- the old key is not findable in the overwritten slot list
  have hnone : ∀ (t : Slot), t.key = k →
      findEntry (slotAt b b.min_pos).key (b.slots.set b.min_pos t) = none := by
    intro t htk
    rw [findEntry_eq_none_iff]
    intro s' hs'
    obtain ⟨j, hj⟩ := List.mem_iff_getElem?.1 hs'
    by_cases hjp : j = b.min_pos
    · subst hjp
      rw [List.getElem?_set_self (by omega)] at hj
      cases hj
      rw [htk]
      exact fun he => holdne he.symm
    · rw [List.getElem?_set_ne (fun he => hjp he.symm)] at hj
      intro hkey
      have : j = b.min_pos :=
        occKey_unique hWF hj hpget
          (hfull s' (List.getElem?_mem hj)) hpkey hkey
      exact hjp this
  have hfindnew : ∀ (t : Slot), t.key = k →
      findEntry k (b.slots.set b.min_pos t) = some t := by
    intro t htk
    have := @findEntry_set_unique b.slots b.min_pos t hplt
      (by rw [htk]; exact habs)
    rw [htk] at this
    exact this
  refine ⟨?_, ?_, hpkey, hpmeta.trans hmm⟩
  · simp only [insert_or_assign, if_neg hk, hfi, hfe]
    refine ⟨trivial, refresh_slots _, ?_, ?_, ?_⟩
    · rw [refresh_cur_meta]
    · unfold find
      rw [if_neg hk, refresh_slots]
      show (findEntry k (b.slots.set b.min_pos ⟨k, b.cur_meta, v⟩)).map _ = _
      rw [hfindnew ⟨k, b.cur_meta, v⟩ rfl]
      rfl
    · unfold find
      rw [if_neg hpkey, refresh_slots]
      show (findEntry (slotAt b b.min_pos).key
          (b.slots.set b.min_pos ⟨k, b.cur_meta, v⟩)).map _ = _
      rw [hnone ⟨k, b.cur_meta, v⟩ rfl]
      rfl
  · intro m hm
    have hmlt : ¬m < b.min_meta := by omega
    simp only [insert_or_assign, if_neg hk, hfi, hfe, if_neg hmlt]
    refine ⟨trivial, refresh_slots _, ?_, ?_, ?_⟩
    · rw [refresh_cur_meta]
    · unfold find
      rw [if_neg hk, refresh_slots]
      show (findEntry k (b.slots.set b.min_pos ⟨k, m, v⟩)).map _ = _
      rw [hfindnew ⟨k, m, v⟩ rfl]
      rfl
    · unfold find
      rw [if_neg hpkey, refresh_slots]
      show (findEntry (slotAt b b.min_pos).key
          (b.slots.set b.min_pos ⟨k, m, v⟩)).map _ = _
      rw [hnone ⟨k, m, v⟩ rfl]
      rfl

/-- Closed witness for C2 at a concrete full bucket. -/
theorem full_bucket_insert_evicts_min_witness :
    (BucketInv wbFull ∧ BucketWF wbFull ∧ (∀ s ∈ wbFull.slots, s.key ≠ EMPTY_KEY) ∧
      (∀ s ∈ wbFull.slots, s.key ≠ 3) ∧ (3 : Nat) ≠ EMPTY_KEY ∧ 0 < wbFull.slots.length) ∧
    (((insert_or_assign wbFull 3 30 none).2 = .evicted ∧
      (insert_or_assign wbFull 3 30 none).1.slots =
        wbFull.slots.set wbFull.min_pos ⟨3, wbFull.cur_meta, 30⟩ ∧
      (insert_or_assign wbFull 3 30 none).1.cur_meta = wbFull.cur_meta + 1 ∧
      find (insert_or_assign wbFull 3 30 none).1 3 = some (30, wbFull.cur_meta) ∧
      find (insert_or_assign wbFull 3 30 none).1 (slotAt wbFull wbFull.min_pos).key = none) ∧
    (∀ m, wbFull.min_meta ≤ m →
      (insert_or_assign wbFull 3 30 (some m)).2 = .evicted ∧
      (insert_or_assign wbFull 3 30 (some m)).1.slots =
        wbFull.slots.set wbFull.min_pos ⟨3, m, 30⟩ ∧
      (insert_or_assign wbFull 3 30 (some m)).1.cur_meta = wbFull.cur_meta ∧
      find (insert_or_assign wbFull 3 30 (some m)).1 3 = some (30, m) ∧
      find (insert_or_assign wbFull 3 30 (some m)).1 (slotAt wbFull wbFull.min_pos).key = none) ∧
    (slotAt wbFull wbFull.min_pos).key ≠ EMPTY_KEY ∧
    (slotAt wbFull wbFull.min_pos).meta = trueMinMeta wbFull.slots) :=
  ⟨⟨by decide, by decide, by decide, by decide, by decide, by decide⟩,
   full_bucket_insert_evicts_min wbFull 3 30 (by decide) (by decide) (by decide)
     (by decide) (by decide) (by decide)⟩

/-! ### Claim C3: insertion with a smaller meta is rejected -/

/-- C3: inserting a key absent from its full bucket with a caller meta
smaller than `min_meta` is rejected and the bucket is returned entirely
unchanged. -/
theorem full_bucket_insert_smaller_meta_rejected (b : Bucket) (k v m : Nat)
    (hfull : ∀ s ∈ b.slots, s.key ≠ EMPTY_KEY)
    (habs : ∀ s ∈ b.slots, s.key ≠ k)
    (hk : k ≠ EMPTY_KEY)
    (hm : m < b.min_meta) :
    insert_or_assign b k v (some m) = (b, .rejected) := by
  simp only [insert_or_assign, if_neg hk, firstKeyIdx_none.2 habs,
    firstKeyIdx_none.2 hfull, if_pos hm]

/-- Closed witness for C3 at a concrete full bucket. -/
theorem full_bucket_insert_smaller_meta_rejected_witness :
    ((∀ s ∈ wbFull.slots, s.key ≠ EMPTY_KEY) ∧ (∀ s ∈ wbFull.slots, s.key ≠ 3) ∧
      (3 : Nat) ≠ EMPTY_KEY ∧ 4 < wbFull.min_meta) ∧
    insert_or_assign wbFull 3 30 (some 4) = (wbFull, .rejected) :=
  ⟨⟨by decide, by decide, by decide, by decide⟩,
   full_bucket_insert_smaller_meta_rejected wbFull 3 30 4 (by decide) (by decide)
     (by decide) (by decide)⟩

/-! ### Claim C8: construction-time defaults of the Table struct -/

/-- C8: a table constructed without overriding the configuration
options carries the source defaults: `bucket_max_size = 128`,
`max_hbm_for_vectors = 0` (host-tier only), and `max_size` the maximum
representable `uint64_t` value. -/
theorem table_default_config :
    ({ hashFn := id, buckets := [] } : Table).bucket_max_size = 128 ∧
    ({ hashFn := id, buckets := [] } : Table).max_hbm_for_vectors = 0 ∧
    ({ hashFn := id, buckets := [] } : Table).max_size = 2 ^ 64 - 1 ∧
    ({ hashFn := id, buckets := [] } : Table).capacity = 134217728 :=
  ⟨rfl, rfl, rfl, rfl⟩

/-! ### Claim C10: the all-ones key is a reserved sentinel -/

/-- C10: the all-ones key value is reserved as the free-slot sentinel:
no occupied slot ever holds it, and through the public interface it can
be neither found, nor erased, nor stored. -/
theorem empty_key_reserved (b : Bucket) (v : Nat) (m? : Option Nat) :
    EMPTY_KEY = 2 ^ 64 - 1 ∧
    (∀ p ∈ occList b.slots, p.2.key ≠ EMPTY_KEY) ∧
    find b EMPTY_KEY = none ∧
    erase b EMPTY_KEY = (b, false) ∧
    insert_or_assign b EMPTY_KEY v m? = (b, .rejected) := by
  refine ⟨rfl, ?_, ?_, ?_, ?_⟩
  · intro p hp
    exact (mem_occListFrom.1 hp).2
  · simp [find]
  · simp [erase]
  · simp [insert_or_assign]

/-! ### Erase-if: slot-level characterisation for meta-preserving predicates -/

theorem set_self_of_getElem? :
    ∀ {l : List Slot} {i : Nat} {a : Slot}, l[i]? = some a → l.set i a = l := by
  intro l
  induction l with
  | nil => intro i a h; simp at h
  | cons s rest ih =>
    intro i a h
    cases i with
    | zero =>
      simp at h
      subst h
      rfl
    | succ i =>
      simp only [List.getElem?_cons_succ] at h
      show s :: rest.set i a = s :: rest
      rw [ih h]

theorem setMetaAt_same {l : List Slot} {i : Nat} {s : Slot} (h : l[i]? = some s) :
    setMetaAt l i s.meta = l := by
  unfold setMetaAt
  rw [h]
  show l.set i s = l
  exact set_self_of_getElem? h

theorem eraseIfGo_step_none {pred : EraseIfPredictInternal} {pat thr n i : Nat} {b : Bucket}
    {c : Nat} (hbi : b.slots[i]? = none) :
    eraseIfGo pred pat thr (n + 1) i (b, c) = (b, c) := by
  simp [eraseIfGo, hbi]

theorem eraseIfGo_step_free {pred : EraseIfPredictInternal} {pat thr n i : Nat} {b : Bucket}
    {c : Nat} {s : Slot} (hbi : b.slots[i]? = some s) (hkey : s.key = EMPTY_KEY) :
    eraseIfGo pred pat thr (n + 1) i (b, c) = eraseIfGo pred pat thr n (i + 1) (b, c) := by
  simp [eraseIfGo, hbi, hkey]

theorem eraseIfGo_step_hit {pred : EraseIfPredictInternal} {pat thr n i : Nat} {b : Bucket}
    {c : Nat} {s : Slot} (hbi : b.slots[i]? = some s) (hkey : ¬s.key = EMPTY_KEY)
    (hdec : (pred s.key s.meta pat thr).1 = true) :
    eraseIfGo pred pat thr (n + 1) i (b, c) =
      eraseIfGo pred pat thr n (i + 1)
        (eraseSlotAt
          { b with slots := setMetaAt b.slots i (pred s.key s.meta pat thr).2 } i, c + 1) := by
  simp [eraseIfGo, hbi, hkey, hdec]

theorem eraseIfGo_step_miss {pred : EraseIfPredictInternal} {pat thr n i : Nat} {b : Bucket}
    {c : Nat} {s : Slot} (hbi : b.slots[i]? = some s) (hkey : ¬s.key = EMPTY_KEY)
    (hdec : ¬(pred s.key s.meta pat thr).1 = true) :
    eraseIfGo pred pat thr (n + 1) i (b, c) =
      eraseIfGo pred pat thr n (i + 1)
        ({ b with slots := setMetaAt b.slots i (pred s.key s.meta pat thr).2 }, c) := by
  simp [eraseIfGo, hbi, hkey, hdec]

theorem eraseSlotAt_slots (b : Bucket) (i : Nat) :
    (eraseSlotAt b i).slots = clearAt b.slots i := by
  unfold eraseSlotAt
  split
  · rw [refresh_slots]
  · rfl

theorem eraseSlotAt_cur_meta (b : Bucket) (i : Nat) :
    (eraseSlotAt b i).cur_meta = b.cur_meta := by
  unfold eraseSlotAt
  split
  · rw [refresh_cur_meta]
  · rfl

theorem eraseIfGo_slots_pure (pred : EraseIfPredictInternal) (pat thr : Nat)
    (hpure : ∀ k m p t, (pred k m p t).2 = m) :
    ∀ (n i : Nat) (b : Bucket) (c j : Nat),
      (eraseIfGo pred pat thr n i (b, c)).1.slots[j]? =
        if i ≤ j ∧ j < i + n then
          (b.slots[j]?).map (fun s =>
            if s.key ≠ EMPTY_KEY ∧ (pred s.key s.meta pat thr).1 = true
            then { s with key := EMPTY_KEY } else s)
        else b.slots[j]? := by
  intro n
  induction n with
  | zero =>
    intro i b c j
    rw [if_neg (by omega)]
    rfl
  | succ n ih =>
    intro i b c j
    cases hbi : b.slots[i]? with
    | none =>
      rw [eraseIfGo_step_none hbi]
      have hlen : b.slots.length ≤ i := List.getElem?_eq_none_iff.1 hbi
      by_cases hj : i ≤ j ∧ j < i + (n + 1)
      · rw [if_pos hj]
        have hjn : b.slots[j]? = none := List.getElem?_eq_none_iff.2 (by omega)
        rw [hjn]
        rfl
      · rw [if_neg hj]
    | some s =>
      by_cases hkey : s.key = EMPTY_KEY
      · rw [eraseIfGo_step_free hbi hkey]
        rw [ih (i + 1) b c j]
        by_cases hj : j = i
        · subst hj
          rw [if_neg (by omega), if_pos (by omega), hbi]
          simp [hkey]
        · by_cases hr : i ≤ j ∧ j < i + (n + 1)
          · rw [if_pos (by omega), if_pos hr]
          · rw [if_neg (by omega), if_neg hr]
      · have hr2 : (pred s.key s.meta pat thr).2 = s.meta := hpure _ _ _ _
        have hb₁ : ({ b with slots := setMetaAt b.slots i (pred s.key s.meta pat thr).2 } :
            Bucket) = b := by
          rw [hr2, setMetaAt_same hbi]
        by_cases hr1 : (pred s.key s.meta pat thr).1 = true
        · rw [eraseIfGo_step_hit hbi hkey hr1, hb₁]
          rw [ih (i + 1) (eraseSlotAt b i) (c + 1) j]
          by_cases hj : j = i
          · subst hj
            rw [if_neg (by omega), if_pos (by omega)]
            rw [eraseSlotAt_slots, getElem?_clearAt_self hbi, hbi]
            simp [hkey, hr1]
          · by_cases hrange : i ≤ j ∧ j < i + (n + 1)
            · rw [if_pos (by omega), if_pos hrange, eraseSlotAt_slots,
                getElem?_clearAt_ne _ (fun he => hj he.symm)]
            · rw [if_neg (by omega), if_neg hrange, eraseSlotAt_slots,
                getElem?_clearAt_ne _ (fun he => hj he.symm)]
        · rw [eraseIfGo_step_miss hbi hkey hr1, hb₁]
          rw [ih (i + 1) b c j]
          by_cases hj : j = i
          · subst hj
            rw [if_neg (by omega), if_pos (by omega), hbi]
            simp [hkey, hr1]
          · by_cases hrange : i ≤ j ∧ j < i + (n + 1)
            · rw [if_pos (by omega), if_pos hrange]
            · rw [if_neg (by omega), if_neg hrange]

/-! ### Claim C6 (corrected): predicate purity is not enforced by the type -/

/-- C6 counterexample: the predicate type of the source takes the
iterated meta by mutable reference, so a predicate can mutate the
stored meta without erasing anything: running `erase_if` with
`bumpMetaPred` changes a surviving slot's meta from 5 to 6. -/
theorem pred_meta_mutation_counterexample :
    (slotAt (erase_if bumpMetaPred 0 0 wbHalf).1 0).meta = 6 ∧
    (slotAt wbHalf 0).meta = 5 ∧
    (erase_if bumpMetaPred 0 0 wbHalf).2 = 0 := by decide

/-- C6 (amended): for every meta-preserving predicate, evaluating the
predicate during `erase_if` leaves every slot's key, meta and value
unchanged: a slot matched by the predicate is cleared (only its key is
overwritten with the sentinel), and every other slot is returned
byte-for-byte identical. -/
theorem erase_if_pure_pred_frame (pred : EraseIfPredictInternal) (pat thr : Nat) (b : Bucket)
    (hpure : ∀ k m p t, (pred k m p t).2 = m) :
    ∀ j : Nat, (erase_if pred pat thr b).1.slots[j]? =
      (b.slots[j]?).map (fun s : Slot =>
        if s.key ≠ EMPTY_KEY ∧ (pred s.key s.meta pat thr).1 = true
        then { s with key := EMPTY_KEY } else s) := by
  intro j
  unfold erase_if
  rw [eraseIfGo_slots_pure pred pat thr hpure]
  by_cases hj : j < b.slots.length
  · rw [if_pos (by omega)]
  · rw [if_neg (by omega)]
    have h1 : b.slots[j]? = none := List.getElem?_eq_none_iff.2 (by omega)
    rw [h1]
    rfl

/-- Closed witness for the amended C6 at a concrete meta-preserving
predicate. -/
theorem erase_if_pure_pred_frame_witness :
    (∀ k m p t, (belowThresholdPred k m p t).2 = m) ∧
    (∀ j : Nat, (erase_if belowThresholdPred 0 3 wbHalf).1.slots[j]? =
      (wbHalf.slots[j]?).map (fun s : Slot =>
        if s.key ≠ EMPTY_KEY ∧ (belowThresholdPred s.key s.meta 0 3).1 = true
        then { s with key := EMPTY_KEY } else s)) :=
  ⟨fun _ _ _ _ => rfl,
   erase_if_pure_pred_frame belowThresholdPred 0 3 wbHalf (fun _ _ _ _ => rfl)⟩

/-! ### Claim C9: mutual exclusion of the per-bucket locks -/

theorem lockInv_init : LockInv initLockSys := by
  intro bk
  refine ⟨?_, ?_, ?_⟩
  · intro _ t
    simp [initLockSys]
  · intro h
    simp [initLockSys] at h
  · intro t u ht
    simp [initLockSys] at ht

theorem lockInv_step {s s' : LockSys} (hInv : LockInv s) (hstep : LockStep s s') :
    LockInv s' := by
  cases hstep with
  | request t0 bk0 hidle =>
    intro bk
    obtain ⟨h1, h2, h3⟩ := hInv bk
    refine ⟨?_, ?_, ?_⟩
    · intro hsem t
      by_cases ht : t = t0
      · subst ht
        simp
      · simpa [ht] using h1 hsem t
    · intro hsem
      obtain ⟨t, ht⟩ := h2 hsem
      have htne : t ≠ t0 := by
        intro he
        rw [he, hidle] at ht
        exact ThreadPhase.noConfusion ht
      exact ⟨t, by simpa [htne] using ht⟩
    · intro t u ht hu
      by_cases htt : t = t0
      · subst htt
        simp at ht
      · by_cases huu : u = t0
        · subst huu
          simp at hu
        · simp only [huu, htt, if_neg, if_false] at ht hu
          exact h3 t u (by simpa [htt] using ht) (by simpa [huu] using hu)
  | acquire t0 bk0 hwait hsem0 =>
    intro bk
    obtain ⟨h1, h2, h3⟩ := hInv bk
    by_cases hbk : bk = bk0
    · subst hbk
      refine ⟨?_, ?_, ?_⟩
      · intro hsem
        simp at hsem
      · intro _
        exact ⟨t0, by simp⟩
      · intro t u ht hu
        have hone : ∀ w, s.thr w ≠ ThreadPhase.critical bk := h1 hsem0
        by_cases htt : t = t0
        · by_cases huu : u = t0
          · rw [htt, huu]
          · exfalso
            exact hone u (by simpa [huu] using hu)
        · exfalso
          exact hone t (by simpa [htt] using ht)
    · refine ⟨?_, ?_, ?_⟩
      · intro hsem t
        have hsem' : s.sem bk = true := by simpa [hbk] using hsem
        by_cases htt : t = t0
        · subst htt
          simp only [if_pos rfl]
          intro he
          exact hbk (ThreadPhase.critical.injEq .. ▸ he ▸ rfl)
        · simpa [htt] using h1 hsem' t
      · intro hsem
        have hsem' : s.sem bk = false := by simpa [hbk] using hsem
        obtain ⟨t, ht⟩ := h2 hsem'
        have htne : t ≠ t0 := by
          intro he
          rw [he, hwait] at ht
          exact ThreadPhase.noConfusion ht
        exact ⟨t, by simpa [htne] using ht⟩
      · intro t u ht hu
        by_cases htt : t = t0
        · subst htt
          simp only [if_pos rfl] at ht
          exact absurd (ThreadPhase.critical.injEq .. ▸ ht) (by simpa using fun h => hbk h.symm)
        · by_cases huu : u = t0
          · subst huu
            simp only [if_pos rfl] at hu
            exact absurd (ThreadPhase.critical.injEq .. ▸ hu) (by simpa using fun h => hbk h.symm)
          · exact h3 t u (by simpa [htt] using ht) (by simpa [huu] using hu)
  | release t0 bk0 hcrit =>
    intro bk
    obtain ⟨h1, h2, h3⟩ := hInv bk
    refine ⟨?_, ?_, ?_⟩
    · intro hsem t
      by_cases htt : t = t0
      · subst htt
        simp
      · simp only [htt, if_neg, if_false]
        by_cases hbk : bk = bk0
        · subst hbk
          intro ht
          exact htt (h3 t t0 (by simpa [htt] using ht) hcrit)
        · have hsem' : s.sem bk = true := by simpa [hbk] using hsem
          simpa [htt] using h1 hsem' t
    · intro hsem
      by_cases hbk : bk = bk0
      · subst hbk
        simp at hsem
      · have hsem' : s.sem bk = false := by simpa [hbk] using hsem
        obtain ⟨t, ht⟩ := h2 hsem'
        have htne : t ≠ t0 := by
          intro he
          rw [he, hcrit] at ht
          have := ThreadPhase.critical.injEq bk0 bk ▸ ht
          exact hbk (by cases ht; rfl)
        exact ⟨t, by simpa [htne] using ht⟩
    · intro t u ht hu
      by_cases htt : t = t0
      · subst htt
        simp at ht
      · by_cases huu : u = t0
        · subst huu
          simp at hu
        · exact h3 t u (by simpa [htt] using ht) (by simpa [huu] using hu)

theorem lockInv_reachable {s : LockSys} (h : LockReachable s) : LockInv s := by
  induction h with
  | init => exact lockInv_init
  | step _ hstep ih => exact lockInv_step ih hstep

/-- C9: in every reachable state of the lock protocol, each bucket's
lock has at most one holder (no shared mode), one logical operation
holds at most one bucket lock at a time, and an operation waiting on a
bucket whose lock nobody holds can always acquire it, so operations on
different buckets never block each other. -/
theorem bucket_lock_mutual_exclusion (s : LockSys) (hreach : LockReachable s) :
    (∀ bk t u, s.thr t = ThreadPhase.critical bk → s.thr u = ThreadPhase.critical bk → t = u) ∧
    (∀ t bk bk', s.thr t = ThreadPhase.critical bk → s.thr t = ThreadPhase.critical bk' →
      bk = bk') ∧
    (∀ t bk, s.thr t = ThreadPhase.waiting bk → (∀ u, s.thr u ≠ ThreadPhase.critical bk) →
      ∃ s', LockStep s s') := by
  have hInv := lockInv_reachable hreach
  refine ⟨?_, ?_, ?_⟩
  · intro bk t u ht hu
    exact (hInv bk).2.2 t u ht hu
  · intro t bk bk' h h'
    rw [h] at h'
    cases h'
    rfl
  · intro t bk hwait hfree
    have hsem : s.sem bk = true := by
      cases hb : s.sem bk with
      | true => rfl
      | false =>
        obtain ⟨u, hu⟩ := ((hInv bk).2.1) hb
        exact absurd hu (hfree u)
    exact ⟨_, LockStep.acquire s t bk hwait hsem⟩

/-- Closed witness for C9 at the initial state. -/
theorem bucket_lock_mutual_exclusion_witness :
    LockReachable initLockSys ∧
    ((∀ bk t u, initLockSys.thr t = ThreadPhase.critical bk →
        initLockSys.thr u = ThreadPhase.critical bk → t = u) ∧
      (∀ t bk bk', initLockSys.thr t = ThreadPhase.critical bk →
        initLockSys.thr t = ThreadPhase.critical bk' → bk = bk') ∧
      (∀ t bk, initLockSys.thr t = ThreadPhase.waiting bk →
        (∀ u, initLockSys.thr u ≠ ThreadPhase.critical bk) → ∃ s', LockStep initLockSys s')) :=
  ⟨LockReachable.init, bucket_lock_mutual_exclusion initLockSys LockReachable.init⟩

/-! ### Appending, replication and the occupied-slot list -/

theorem enumFrom_append :
    ∀ (l₁ l₂ : List Slot) (n : Nat),
      enumFrom n (l₁ ++ l₂) = enumFrom n l₁ ++ enumFrom (n + l₁.length) l₂ := by
  intro l₁
  induction l₁ with
  | nil => intro l₂ n; simp [enumFrom]
  | cons s rest ih =>
    intro l₂ n
    show (n, s) :: enumFrom (n + 1) (rest ++ l₂) = _
    rw [ih l₂ (n + 1)]
    have harith : n + 1 + rest.length = n + (rest.length + 1) := by omega
    rw [harith]
    rfl

theorem occListFrom_append (l₁ l₂ : List Slot) (n : Nat) :
    occListFrom n (l₁ ++ l₂) = occListFrom n l₁ ++ occListFrom (n + l₁.length) l₂ := by
  unfold occListFrom
  rw [enumFrom_append, List.filter_append]

theorem occListFrom_replicate_empty :
    ∀ (m n : Nat), occListFrom n (List.replicate m emptySlot) = [] := by
  intro m
  induction m with
  | zero => intro n; rfl
  | succ m ih =>
    intro n
    rw [List.replicate_succ, occListFrom_cons,
      if_pos (show emptySlot.key = EMPTY_KEY from rfl)]
    exact ih (n + 1)

theorem occListFrom_all_occupied :
    ∀ (l : List Slot) (n : Nat), (∀ s ∈ l, s.key ≠ EMPTY_KEY) →
      occListFrom n l = enumFrom n l := by
  intro l
  induction l with
  | nil => intro n _; rfl
  | cons s rest ih =>
    intro n h
    rw [occListFrom_cons, if_neg (h s (List.mem_cons_self _ _)), enumFrom_cons]
    rw [ih (n + 1) (fun t ht => h t (List.mem_cons_of_mem _ ht))]

theorem occListFrom_map_snd :
    ∀ (l : List Slot) (n : Nat),
      (occListFrom n l).map (fun p => p.2) = l.filter (fun s => s.key ≠ EMPTY_KEY) := by
  intro l
  induction l with
  | nil => intro n; rfl
  | cons s rest ih =>
    intro n
    rw [occListFrom_cons, List.filter_cons]
    by_cases h : s.key = EMPTY_KEY
    · rw [if_pos h, if_neg (by simp [h])]
      exact ih (n + 1)
    · rw [if_neg h, if_pos (by simp [h]), List.map_cons]
      rw [ih (n + 1)]

/-! ### Lookup through filters, appends and replication -/

theorem findEntry_cons (k : Nat) (s : Slot) (rest : List Slot) :
    findEntry k (s :: rest) = if s.key = k then some s else findEntry k rest := rfl

theorem findEntry_filter (k : Nat) (q : Slot → Bool) :
    ∀ (l : List Slot), (∀ s ∈ l, s.key = k → q s = true) →
      findEntry k (l.filter q) = findEntry k l := by
  intro l
  induction l with
  | nil => intro _; rfl
  | cons s rest ih =>
    intro h
    rw [List.filter_cons]
    by_cases hsk : s.key = k
    · rw [if_pos (h s (List.mem_cons_self _ _) hsk)]
      rw [findEntry_cons, findEntry_cons, if_pos hsk, if_pos hsk]
    · have htail := ih (fun t ht => h t (List.mem_cons_of_mem _ ht))
      by_cases hq : q s = true
      · rw [if_pos hq]
        rw [findEntry_cons, findEntry_cons, if_neg hsk, if_neg hsk]
        exact htail
      · rw [if_neg hq]
        rw [htail, findEntry_cons, if_neg hsk]

theorem findEntry_append_some {k : Nat} {l₁ : List Slot} {s : Slot}
    (h : findEntry k l₁ = some s) (l₂ : List Slot) :
    findEntry k (l₁ ++ l₂) = some s := by
  induction l₁ with
  | nil => simp [findEntry] at h
  | cons t rest ih =>
    rw [findEntry_cons] at h
    show findEntry k (t :: (rest ++ l₂)) = some s
    rw [findEntry_cons]
    by_cases htk : t.key = k
    · rw [if_pos htk] at h ⊢
      exact h
    · rw [if_neg htk] at h ⊢
      exact ih h

theorem findEntry_append_none {k : Nat} {l₁ : List Slot}
    (h : findEntry k l₁ = none) (l₂ : List Slot) :
    findEntry k (l₁ ++ l₂) = findEntry k l₂ := by
  induction l₁ with
  | nil => rfl
  | cons t rest ih =>
    rw [findEntry_cons] at h
    show findEntry k (t :: (rest ++ l₂)) = findEntry k l₂
    rw [findEntry_cons]
    by_cases htk : t.key = k
    · rw [if_pos htk] at h
      exact absurd h (by simp)
    · rw [if_neg htk] at h ⊢
      exact ih h

theorem findEntry_replicate_empty {k : Nat} (hk : k ≠ EMPTY_KEY) :
    ∀ (m : Nat), findEntry k (List.replicate m emptySlot) = none := by
  intro m
  induction m with
  | zero => rfl
  | succ m ih =>
    rw [List.replicate_succ, findEntry_cons, if_neg (fun he => hk he.symm)]
    exact ih

theorem findEntry_some {k : Nat} :
    ∀ {l : List Slot} {s : Slot}, findEntry k l = some s → s ∈ l ∧ s.key = k := by
  intro l
  induction l with
  | nil => intro s h; simp [findEntry] at h
  | cons t rest ih =>
    intro s h
    rw [findEntry_cons] at h
    by_cases htk : t.key = k
    · rw [if_pos htk] at h
      cases h
      exact ⟨List.mem_cons_self _ _, htk⟩
    · rw [if_neg htk] at h
      obtain ⟨hm, hk⟩ := ih h
      exact ⟨List.mem_cons_of_mem _ hm, hk⟩

/-! ### Loading distinct fresh keys into the free tail of a bucket -/

theorem set_append_len :
    ∀ (l₁ : List Slot) (a : Slot) (l₂ : List Slot) (b : Slot),
      (l₁ ++ a :: l₂).set l₁.length b = l₁ ++ b :: l₂ := by
  intro l₁
  induction l₁ with
  | nil => intro a l₂ b; rfl
  | cons s rest ih =>
    intro a l₂ b
    show s :: (rest ++ a :: l₂).set rest.length b = s :: (rest ++ b :: l₂)
    rw [ih]

theorem firstKeyIdx_empty_after_occupied :
    ∀ (pre : List Slot) (tl : List Slot), (∀ s ∈ pre, s.key ≠ EMPTY_KEY) →
      firstKeyIdx EMPTY_KEY (pre ++ emptySlot :: tl) = some pre.length := by
  intro pre
  induction pre with
  | nil => intro tl _; simp [firstKeyIdx, emptySlot]
  | cons s rest ih =>
    intro tl h
    show firstKeyIdx EMPTY_KEY (s :: (rest ++ emptySlot :: tl)) = some (rest.length + 1)
    unfold firstKeyIdx
    rw [if_neg (h s (List.mem_cons_self _ _))]
    rw [ih tl (fun t ht => h t (List.mem_cons_of_mem _ ht))]
    rfl

theorem bucketLoad_fill :
    ∀ (es pre : List Slot) (m : Nat) (b : Bucket),
      b.slots = pre ++ List.replicate m emptySlot →
      (∀ s ∈ pre, s.key ≠ EMPTY_KEY) →
      (∀ e ∈ es, e.key ≠ EMPTY_KEY) →
      (∀ e ∈ es, ∀ s ∈ pre, s.key ≠ e.key) →
      (es.map Slot.key).Nodup →
      es.length ≤ m →
      (bucketLoad b es).slots = (pre ++ es) ++ List.replicate (m - es.length) emptySlot := by
  intro es
  induction es with
  | nil =>
    intro pre m b hslots _ _ _ _ _
    show b.slots = (pre ++ []) ++ List.replicate (m - 0) emptySlot
    simpa using hslots
  | cons e rest ih =>
    intro pre m b hslots hpre hocc hfresh hnodup hlen
    have hm : ∃ m', m = m' + 1 := ⟨m - 1, by simp at hlen; omega⟩
    obtain ⟨m', rfl⟩ := hm
    have hke : e.key ≠ EMPTY_KEY := hocc e (List.mem_cons_self _ _)
    have hnofind : firstKeyIdx e.key b.slots = none := by
      rw [firstKeyIdx_none]
      intro s hs
      rw [hslots] at hs
      rcases List.mem_append.1 hs with hs | hs
      · exact hfresh e (List.mem_cons_self _ _) s hs
      · have : s = emptySlot := List.eq_of_mem_replicate hs
        subst this
        exact fun he => hke he.symm
    have hfree : firstKeyIdx EMPTY_KEY b.slots = some pre.length := by
      rw [hslots, List.replicate_succ]
      exact firstKeyIdx_empty_after_occupied pre _ hpre
    have hstep : (insert_or_assign b e.key e.val (some e.meta)).1.slots =
        (pre ++ [e]) ++ List.replicate m' emptySlot := by
      simp only [insert_or_assign, if_neg hke, hnofind, hfree]
      rw [refresh_slots]
      show (b.slots.set pre.length ⟨e.key, e.meta, e.val⟩) = _
      rw [hslots, List.replicate_succ, set_append_len]
      have he : (⟨e.key, e.meta, e.val⟩ : Slot) = e := rfl
      rw [he]
      simp
    show (bucketLoad (insert_or_assign b e.key e.val (some e.meta)).1 rest).slots = _
    rw [ih (pre ++ [e]) m' _ hstep ?_ ?_ ?_ ?_ ?_]
    · have harith : m' + 1 - (e :: rest).length = m' - rest.length := by
        rw [List.length_cons]
        omega
      rw [harith]
      simp
    · intro s hs
      rcases List.mem_append.1 hs with hs | hs
      · exact hpre s hs
      · rw [List.mem_singleton.1 hs]
        exact hke
    · exact fun t ht => hocc t (List.mem_cons_of_mem _ ht)
    · intro t ht s hs
      rcases List.mem_append.1 hs with hs | hs
      · exact hfresh t (List.mem_cons_of_mem _ ht) s hs
      · rw [List.mem_singleton.1 hs]
        simp only [List.map_cons, List.nodup_cons] at hnodup
        intro hkey
        exact hnodup.1 (hkey ▸ List.mem_map_of_mem Slot.key ht)
    · simp only [List.map_cons, List.nodup_cons] at hnodup
      exact hnodup.2
    · simp at hlen
      omega

/-! ### Table-level load: per-bucket decomposition -/

theorem tableInsert_fst_none {t : Table} {k v : Nat} {m? : Option Nat}
    (h : t.buckets[bucketIdx t k]? = none) : (tableInsert t k v m?).1 = t := by
  simp [tableInsert, h]

theorem tableInsert_fst_some {t : Table} {k v : Nat} {m? : Option Nat} {b : Bucket}
    (h : t.buckets[bucketIdx t k]? = some b) :
    (tableInsert t k v m?).1 =
      { t with buckets := t.buckets.set (bucketIdx t k) (insert_or_assign b k v m?).1 } := by
  simp [tableInsert, h]

theorem tableInsert_length (t : Table) (k v : Nat) (m? : Option Nat) :
    (tableInsert t k v m?).1.buckets.length = t.buckets.length := by
  cases h : t.buckets[bucketIdx t k]? with
  | none => rw [tableInsert_fst_none h]
  | some b => rw [tableInsert_fst_some h]; simp

theorem tableInsert_hashFn (t : Table) (k v : Nat) (m? : Option Nat) :
    (tableInsert t k v m?).1.hashFn = t.hashFn := by
  cases h : t.buckets[bucketIdx t k]? with
  | none => rw [tableInsert_fst_none h]
  | some b => rw [tableInsert_fst_some h]

theorem tableInsert_capacity (t : Table) (k v : Nat) (m? : Option Nat) :
    (tableInsert t k v m?).1.capacity = t.capacity := by
  cases h : t.buckets[bucketIdx t k]? with
  | none => rw [tableInsert_fst_none h]
  | some b => rw [tableInsert_fst_some h]

theorem tableLoad_length :
    ∀ (es : List Slot) (t : Table), (tableLoad t es).buckets.length = t.buckets.length := by
  intro es
  induction es with
  | nil => intro t; rfl
  | cons e rest ih =>
    intro t
    show (tableLoad (tableInsert t e.key e.val (some e.meta)).1 rest).buckets.length = _
    rw [ih, tableInsert_length]

theorem tableLoad_hashFn :
    ∀ (es : List Slot) (t : Table), (tableLoad t es).hashFn = t.hashFn := by
  intro es
  induction es with
  | nil => intro t; rfl
  | cons e rest ih =>
    intro t
    show (tableLoad (tableInsert t e.key e.val (some e.meta)).1 rest).hashFn = _
    rw [ih, tableInsert_hashFn]

theorem tableLoad_capacity :
    ∀ (es : List Slot) (t : Table), (tableLoad t es).capacity = t.capacity := by
  intro es
  induction es with
  | nil => intro t; rfl
  | cons e rest ih =>
    intro t
    show (tableLoad (tableInsert t e.key e.val (some e.meta)).1 rest).capacity = _
    rw [ih, tableInsert_capacity]

theorem tableLoad_buckets :
    ∀ (es : List Slot) (t : Table) (j : Nat),
      (tableLoad t es).buckets[j]? =
        (t.buckets[j]?).map (fun b =>
          bucketLoad b (es.filter (fun e => t.hashFn e.key % t.buckets.length = j))) := by
  intro es
  induction es with
  | nil =>
    intro t j
    show t.buckets[j]? = _
    cases t.buckets[j]? <;> rfl
  | cons e rest ih =>
    intro t j
    show (tableLoad (tableInsert t e.key e.val (some e.meta)).1 rest).buckets[j]? = _
    rw [ih]
    rw [tableInsert_hashFn, tableInsert_length]
    rw [List.filter_cons]
    by_cases hej : t.hashFn e.key % t.buckets.length = j
    · rw [if_pos (by simpa using hej)]
      have hidx : bucketIdx t e.key = j := hej
      cases hb : t.buckets[j]? with
      | none =>
        rw [tableInsert_fst_none (by rw [hidx]; exact hb)]
        rw [hb]
        rfl
      | some b =>
        rw [tableInsert_fst_some (by rw [hidx]; exact hb)]
        have hlt : j < t.buckets.length := (List.getElem?_eq_some_iff.1 hb).1
        simp only [hidx, List.getElem?_set_self hlt, hb]
        rfl
    · rw [if_neg (by simpa using hej)]
      cases hb : t.buckets[bucketIdx t e.key]? with
      | none => rw [tableInsert_fst_none hb]
      | some b =>
        rw [tableInsert_fst_some hb]
        simp only [List.getElem?_set_ne (show bucketIdx t e.key ≠ j from hej)]

/-! ### Routing the saved stream back to its buckets -/

theorem flatten_filter_single {α : Type} (p : α → Bool) :
    ∀ (ds : List (List α)) (base j0 : Nat),
      (∀ (i : Nat) (d : List α), ds[i]? = some d → ∀ e ∈ d, p e = true → base + i = j0) →
      (ds.flatten).filter p = (ds.getD (j0 - base) []).filter p := by
  intro ds
  induction ds with
  | nil => intro base j0 _; simp
  | cons d rest ih =>
    intro base j0 hroute
    show ((d ++ rest.flatten).filter p) = _
    rw [List.filter_append]
    rcases Nat.lt_trichotomy base j0 with hlt | heq | hgt
    · have hd : d.filter p = [] := by
        rw [List.filter_eq_nil_iff]
        intro e he hpe
        have := hroute 0 d (by simp) e he hpe
        omega
      rw [hd, List.nil_append]
      rw [ih (base + 1) j0 (fun i d' hd' e he hpe => by
        have := hroute (i + 1) d' (by simpa using hd') e he hpe
        omega)]
      have hidx : j0 - base = (j0 - (base + 1)) + 1 := by omega
      rw [hidx, List.getD_cons_succ]
    · subst heq
      have hrest : (rest.flatten).filter p = [] := by
        rw [List.filter_eq_nil_iff]
        intro e he hpe
        obtain ⟨d', hd', hed'⟩ := List.mem_flatten.1 he
        obtain ⟨i, hi⟩ := List.mem_iff_getElem?.1 hd'
        have := hroute (i + 1) d' (by simpa using hi) e hed' hpe
        omega
      rw [hrest, List.append_nil]
      have hz : base - base = 0 := by omega
      rw [hz, List.getD_cons_zero]
    · have hd : d.filter p = [] := by
        rw [List.filter_eq_nil_iff]
        intro e he hpe
        have := hroute 0 d (by simp) e he hpe
        omega
      have hrest : (rest.flatten).filter p = [] := by
        rw [List.filter_eq_nil_iff]
        intro e he hpe
        obtain ⟨d', hd', hed'⟩ := List.mem_flatten.1 he
        obtain ⟨i, hi⟩ := List.mem_iff_getElem?.1 hd'
        have := hroute (i + 1) d' (by simpa using hi) e hed' hpe
        omega
      rw [hd, hrest]
      have hz : j0 - base = 0 := by omega
      rw [hz, List.getD_cons_zero, hd]
      rfl

/-! ### Counting entries routed across buckets -/

theorem sum_map_add {α : Type} (f g : α → Nat) :
    ∀ (l : List α), (l.map (fun a => f a + g a)).sum = (l.map f).sum + (l.map g).sum := by
  intro l
  induction l with
  | nil => rfl
  | cons a l ih =>
    simp only [List.map_cons, List.sum_cons, ih]
    omega

theorem sum_indicator_zero (x : Nat) :
    ∀ (N : Nat), N ≤ x →
      ((List.range N).map (fun j => if x = j then 1 else 0)).sum = 0 := by
  intro N
  induction N with
  | zero => intro _; rfl
  | succ N ih =>
    intro h
    rw [List.range_succ, List.map_append, List.sum_append]
    rw [ih (by omega)]
    simp only [List.map_cons, List.map_nil, List.sum_cons, List.sum_nil]
    rw [if_neg (by omega)]
    omega

theorem sum_indicator_one (x : Nat) :
    ∀ (N : Nat), x < N →
      ((List.range N).map (fun j => if x = j then 1 else 0)).sum = 1 := by
  intro N
  induction N with
  | zero => intro h; omega
  | succ N ih =>
    intro h
    rw [List.range_succ, List.map_append, List.sum_append]
    by_cases hx : x = N
    · rw [sum_indicator_zero x N (by omega)]
      simp [hx]
    · rw [ih (by omega)]
      simp only [List.map_cons, List.map_nil, List.sum_cons, List.sum_nil]
      rw [if_neg hx]
      omega

theorem sum_filter_route (route : Slot → Nat) :
    ∀ (es : List Slot) (N : Nat), (∀ e ∈ es, route e < N) →
      ((List.range N).map (fun j => (es.filter (fun e => route e = j)).length)).sum =
        es.length := by
  intro es
  induction es with
  | nil =>
    intro N _
    simp
  | cons e rest ih =>
    intro N h
    have hfun : ∀ j : Nat, ((e :: rest).filter (fun e' => route e' = j)).length =
        (if route e = j then 1 else 0) + (rest.filter (fun e' => route e' = j)).length := by
      intro j
      rw [List.filter_cons]
      by_cases hej : route e = j
      · rw [if_pos (by simpa using hej), if_pos hej, List.length_cons]
        omega
      · rw [if_neg (by simpa using hej), if_neg hej]
        omega
    rw [List.map_congr_left (fun j _ => hfun j)]
    rw [sum_map_add (fun j => if route e = j then 1 else 0)
      (fun j => (rest.filter (fun e' => route e' = j)).length)]
    rw [ih N (fun e' he' => h e' (List.mem_cons_of_mem _ he'))]
    have hone := sum_indicator_one (route e) N (h e (List.mem_cons_self _ _))
    have hre : ((List.range N).map (fun j => if route e = j then 1 else 0)).sum = 1 := hone
    rw [hre, List.length_cons]
    omega

/-! ### Dumps, placement, and bucket-level round trips -/

theorem occList_length_le (l : List Slot) : (occList l).length ≤ l.length := by
  unfold occList occListFrom
  calc (List.filter _ (enumFrom 0 l)).length
      ≤ (enumFrom 0 l).length := List.length_filter_le _ _
    _ = l.length := enumFrom_length 0 l

theorem dumpBucket_occupied {b : Bucket} : ∀ e ∈ dumpBucket b, e.key ≠ EMPTY_KEY := by
  intro e he
  unfold dumpBucket at he
  obtain ⟨p, hp, hpe⟩ := List.mem_map.1 he
  rw [← hpe]
  exact (mem_occListFrom.1 hp).2

theorem dumpBucket_keys_nodup {b : Bucket} (hWF : BucketWF b) :
    ((dumpBucket b).map Slot.key).Nodup := by
  unfold dumpBucket
  rw [List.map_map]
  exact hWF

theorem dumpBucket_eq_filter (b : Bucket) :
    dumpBucket b = b.slots.filter (fun s => s.key ≠ EMPTY_KEY) :=
  occListFrom_map_snd b.slots 0

theorem dumpBucket_length_le (b : Bucket) : (dumpBucket b).length ≤ b.slots.length := by
  unfold dumpBucket
  rw [List.length_map]
  exact occList_length_le _

theorem dumpBucket_length (b : Bucket) : (dumpBucket b).length = (occList b.slots).length := by
  unfold dumpBucket
  rw [List.length_map]

theorem tableWF_route {t : Table} (hWF : TableWF t) {i : Nat} {b : Bucket}
    (hb : t.buckets[i]? = some b) :
    ∀ e ∈ dumpBucket b, t.hashFn e.key % t.buckets.length = i := by
  intro e he
  obtain ⟨p, hp, hpe⟩ := List.mem_map.1 he
  have hi : i < t.buckets.length := (List.getElem?_eq_some_iff.1 hb).1
  have hgetD : (t.buckets.getD i (emptyBucket 0)) = b := by
    rw [List.getD_eq_getElem?_getD, hb]
    rfl
  have hroute := hWF.2 i hi p (by rw [hgetD]; exact hp)
  rw [← hpe]
  exact hroute

theorem tableFind_empty_key (t : Table) : tableFind t EMPTY_KEY = none := by
  unfold tableFind
  cases h : t.buckets[bucketIdx t EMPTY_KEY]? with
  | none => rfl
  | some b => simp [find]

/-- After loading distinct routed entries into an empty bucket, lookup
agrees with lookup in the entry list itself. -/
theorem bucketLoad_empty_find {es : List Slot} {L : Nat} {k : Nat}
    (hk : k ≠ EMPTY_KEY)
    (hocc : ∀ e ∈ es, e.key ≠ EMPTY_KEY)
    (hnodup : (es.map Slot.key).Nodup)
    (hlen : es.length ≤ L) :
    find (bucketLoad (emptyBucket L) es) k = (findEntry k es).map (fun s => (s.val, s.meta)) := by
  have hfill := bucketLoad_fill es [] L (emptyBucket L) (by simp [emptyBucket])
    (by simp) hocc (by simp) hnodup hlen
  unfold find
  rw [if_neg hk, hfill]
  simp only [List.nil_append]
  cases hfe : findEntry k es with
  | some s => rw [findEntry_append_some hfe]
  | none => rw [findEntry_append_none hfe, findEntry_replicate_empty hk]

/-! ### Claim C5: save followed by load reproduces the mapping -/

/-- C5: streaming the whole table out through the persistence adapter
and loading the stream into an empty table of the same configuration
(metas preserved, every entry inserted through the normal insertion
path) reproduces exactly the same key to (value, meta) mapping. -/
theorem save_load_roundtrip_preserves_mapping (t : Table) (hWF : TableWF t) :
    ∀ k, tableFind (tableLoad (emptyTableLike t) (tableSave t)) k = tableFind t k := by
  intro k
  by_cases hk : k = EMPTY_KEY
  · rw [hk, tableFind_empty_key, tableFind_empty_key]
  · show tableFind (tableLoad (emptyTableLike t) (tableSave t)) k = tableFind t k
    unfold tableFind bucketIdx
    rw [tableLoad_hashFn, tableLoad_length, tableLoad_buckets]
    simp only [emptyTableLike, List.length_map, List.getElem?_map]
    cases hbj : t.buckets[t.hashFn k % t.buckets.length]? with
    | none => rfl
    | some bj =>
      simp only [Option.map_map, Option.map_some]
      have hj : t.hashFn k % t.buckets.length < t.buckets.length :=
        (List.getElem?_eq_some_iff.1 hbj).1
      have hWFb := hWF.1 bj (List.getElem?_mem hbj)
      -- the stream filtered to this bucket is exactly this bucket's dump
      have hfiltered : (tableSave t).filter
          (fun e => t.hashFn e.key % t.buckets.length = t.hashFn k % t.buckets.length) =
          dumpBucket bj := by
        unfold tableSave
        rw [flatten_filter_single _ (t.buckets.map dumpBucket) 0
          (t.hashFn k % t.buckets.length) ?_]
        · rw [Nat.sub_zero]
          have hget : (t.buckets.map dumpBucket).getD (t.hashFn k % t.buckets.length) [] =
              dumpBucket bj := by
            rw [List.getD_eq_getElem?_getD, List.getElem?_map, hbj]
            rfl
          rw [hget, List.filter_eq_self]
          intro e he
          simp only [decide_eq_true_eq]
          exact tableWF_route hWF hbj e he
        · intro i d hd e he hpe
          rw [List.getElem?_map] at hd
          cases hbi : t.buckets[i]? with
          | none => rw [hbi] at hd; simp at hd
          | some bi =>
            rw [hbi] at hd
            have hd' : dumpBucket bi = d := by simpa using hd
            subst hd'
            have := tableWF_route hWF hbi e he
            simp only [decide_eq_true_eq] at hpe
            omega
      rw [hfiltered]
      show find (bucketLoad (emptyBucket t.bucket_max_size) (dumpBucket bj)) k = find bj k
      rw [bucketLoad_empty_find hk dumpBucket_occupied (dumpBucket_keys_nodup hWFb.1)
        (by rw [← hWFb.2]; exact dumpBucket_length_le bj)]
      have hfe : findEntry k (dumpBucket bj) = findEntry k bj.slots := by
        rw [dumpBucket_eq_filter]
        exact findEntry_filter k _ bj.slots
          (fun s _ hsk => by simp [hsk]; exact fun he => hk (hsk ▸ he))
      rw [hfe]
      unfold find
      rw [if_neg hk]

/-- Closed witness for C5 at a concrete two-bucket table. -/
theorem save_load_roundtrip_preserves_mapping_witness :
    TableWF wtSmall ∧
    (∀ k, tableFind (tableLoad (emptyTableLike wtSmall) (tableSave wtSmall)) k =
      tableFind wtSmall k) :=
  ⟨by decide, save_load_roundtrip_preserves_mapping wtSmall (by decide)⟩

/-! ### Counting occupied slots after a fresh load -/

theorem occList_append_replicate_length (es : List Slot) (m : Nat)
    (h : ∀ e ∈ es, e.key ≠ EMPTY_KEY) :
    (occList (es ++ List.replicate m emptySlot)).length = es.length := by
  unfold occList
  rw [occListFrom_append, occListFrom_replicate_empty, List.append_nil]
  rw [occListFrom_all_occupied es 0 h, enumFrom_length]

theorem tableSave_occupied {t : Table} : ∀ e ∈ tableSave t, e.key ≠ EMPTY_KEY := by
  intro e he
  unfold tableSave at he
  obtain ⟨d, hd, hed⟩ := List.mem_flatten.1 he
  obtain ⟨b, hb, hbd⟩ := List.mem_map.1 hd
  rw [← hbd] at hed
  exact dumpBucket_occupied e hed

theorem tableSave_length (t : Table) : (tableSave t).length = occupiedCount t := by
  unfold tableSave occupiedCount
  rw [List.length_flatten, List.map_map]
  congr 1
  exact List.map_congr_left (fun b _ => dumpBucket_length b)

theorem tableLoad_fresh_count (t0 : Table) (es : List Slot) (N L : Nat)
    (hbuckets : t0.buckets = List.replicate N (emptyBucket L))
    (hocc : ∀ e ∈ es, e.key ≠ EMPTY_KEY)
    (hgood : ∀ j < N, ((es.filter (fun e => t0.hashFn e.key % N = j)).map Slot.key).Nodup ∧
      (es.filter (fun e => t0.hashFn e.key % N = j)).length ≤ L)
    (hroute : ∀ e ∈ es, t0.hashFn e.key % N < N) :
    occupiedCount (tableLoad t0 es) = es.length := by
  have hlen0 : t0.buckets.length = N := by rw [hbuckets, List.length_replicate]
  have hbl : (tableLoad t0 es).buckets =
      (List.range N).map (fun j =>
        bucketLoad (emptyBucket L) (es.filter (fun e => t0.hashFn e.key % N = j))) := by
    apply List.ext_getElem?
    intro idx
    rw [tableLoad_buckets, hbuckets, List.getElem?_map, List.getElem?_replicate]
    rw [List.length_replicate]
    by_cases hidx : idx < N
    · rw [if_pos hidx, List.getElem?_range hidx]
      rfl
    · rw [if_neg hidx]
      have : (List.range N)[idx]? = none := by
        rw [List.getElem?_eq_none_iff, List.length_range]
        omega
      rw [this]
      rfl
  unfold occupiedCount
  rw [hbl, List.map_map]
  have hpoint : ∀ j ∈ List.range N,
      ((fun b => (occList b.slots).length) ∘ (fun j =>
        bucketLoad (emptyBucket L) (es.filter (fun e => t0.hashFn e.key % N = j)))) j =
      (es.filter (fun e => t0.hashFn e.key % N = j)).length := by
    intro j hj
    have hjN : j < N := List.mem_range.1 hj
    obtain ⟨hnodup, hle⟩ := hgood j hjN
    have hoccf : ∀ e ∈ es.filter (fun e => t0.hashFn e.key % N = j), e.key ≠ EMPTY_KEY :=
      fun e he => hocc e (List.mem_filter.1 he).1
    have hfill := bucketLoad_fill (es.filter (fun e => t0.hashFn e.key % N = j)) [] L
      (emptyBucket L) (by simp [emptyBucket]) (by simp) hoccf (by simp) hnodup hle
    show (occList (bucketLoad (emptyBucket L)
      (es.filter (fun e => t0.hashFn e.key % N = j))).slots).length = _
    rw [hfill, List.nil_append]
    exact occList_append_replicate_length _ _ hoccf
  rw [List.map_congr_left hpoint]
  exact sum_filter_route (fun e => t0.hashFn e.key % N) es N hroute

/-! ### Claim C7: reserve to double capacity preserves all entries -/

/-- C7: for a well-formed table whose capacity equals
`buckets_num * bucket_max_size`, a successful `reserve(2 x capacity)`
keeps the occupied count unchanged, keeps every previously findable key
findable with unchanged value and meta, and re-establishes
`capacity = buckets_num * bucket_max_size`. -/
theorem reserve_preserves_entries_and_capacity (t : Table)
    (hWF : TableWF t)
    (hcap : t.capacity = t.buckets.length * t.bucket_max_size)
    (hpos : 0 < t.capacity)
    (hmax : 2 * t.capacity ≤ t.max_size) :
    occupiedCount (reserve t (2 * t.capacity)) = occupiedCount t ∧
    (∀ k v m, tableFind t k = some (v, m) →
      tableFind (reserve t (2 * t.capacity)) k = some (v, m)) ∧
    (reserve t (2 * t.capacity)).capacity =
      (reserve t (2 * t.capacity)).buckets.length * t.bucket_max_size := by
  have hn : 0 < t.buckets.length := by
    rcases Nat.eq_zero_or_pos t.buckets.length with h0 | h
    · rw [h0] at hcap
      simp at hcap
      omega
    · exact h
  have hred : reserve t (2 * t.capacity) =
      tableLoad
        { t with
          buckets := List.replicate (2 * t.buckets.length) (emptyBucket t.bucket_max_size),
          capacity := 2 * t.buckets.length * t.bucket_max_size }
        (tableSave t) := by
    unfold reserve
    rw [if_neg (by omega), if_neg (by omega)]
  -- the per-destination characterisation of the routed stream
  have hchar : ∀ j, ∃ bj', t.buckets[j % t.buckets.length]? = some bj' ∧
      (tableSave t).filter
        (fun e => t.hashFn e.key % (2 * t.buckets.length) = j) =
      (dumpBucket bj').filter
        (fun e => t.hashFn e.key % (2 * t.buckets.length) = j) := by
    intro j
    have hjn : j % t.buckets.length < t.buckets.length := Nat.mod_lt _ hn
    obtain ⟨bj', hbj'⟩ : ∃ bj', t.buckets[j % t.buckets.length]? = some bj' :=
      ⟨_, List.getElem?_eq_getElem hjn⟩
    refine ⟨bj', hbj', ?_⟩
    unfold tableSave
    rw [flatten_filter_single _ (t.buckets.map dumpBucket) 0 (j % t.buckets.length) ?_]
    · rw [Nat.sub_zero]
      rw [List.getD_eq_getElem?_getD, List.getElem?_map, hbj']
      rfl
    · intro i d hd e he hpe
      rw [List.getElem?_map] at hd
      cases hbi : t.buckets[i]? with
      | none => rw [hbi] at hd; simp at hd
      | some bi =>
        rw [hbi] at hd
        have hd' : dumpBucket bi = d := by simpa using hd
        subst hd'
        have hplace := tableWF_route hWF hbi e he
        simp only [decide_eq_true_eq] at hpe
        have hdvd : t.buckets.length ∣ 2 * t.buckets.length :=
          ⟨2, Nat.mul_comm 2 t.buckets.length⟩
        have hmm := Nat.mod_mod_of_dvd (t.hashFn e.key) hdvd
        rw [← hpe]
        omega
  refine ⟨?_, ?_, ?_⟩
  · -- occupied count is preserved
    rw [hred]
    rw [tableLoad_fresh_count _ (tableSave t) (2 * t.buckets.length) t.bucket_max_size
      rfl tableSave_occupied ?_ ?_]
    · exact tableSave_length t
    · intro j hj
      obtain ⟨bj', hbj', hfil⟩ := hchar j
      have hWFb := hWF.1 bj' (List.getElem?_mem hbj')
      constructor
      · show ((List.filter _ (tableSave t)).map Slot.key).Nodup
        rw [hfil]
        exact ((List.filter_sublist _).map Slot.key).nodup (dumpBucket_keys_nodup hWFb.1)
      · show (List.filter _ (tableSave t)).length ≤ t.bucket_max_size
        rw [hfil]
        calc ((dumpBucket bj').filter _).length
            ≤ (dumpBucket bj').length := List.length_filter_le _ _
          _ ≤ bj'.slots.length := dumpBucket_length_le bj'
          _ = t.bucket_max_size := hWFb.2
    · intro e _
      exact Nat.mod_lt _ (by omega)
  · -- previously findable keys stay findable with the same value and meta
    intro k v m hfound
    have hk : k ≠ EMPTY_KEY := by
      intro he
      rw [he, tableFind_empty_key] at hfound
      exact Option.noConfusion hfound
    unfold tableFind bucketIdx at hfound
    cases hb0 : t.buckets[t.hashFn k % t.buckets.length]? with
    | none => rw [hb0] at hfound; exact Option.noConfusion hfound
    | some b0 =>
      rw [hb0] at hfound
      have hfound' : find b0 k = some (v, m) := hfound
      unfold find at hfound'
      rw [if_neg hk] at hfound'
      cases hfe : findEntry k b0.slots with
      | none => rw [hfe] at hfound'; exact Option.noConfusion hfound'
      | some s =>
        rw [hfe] at hfound'
        obtain ⟨hmem, hskey⟩ := findEntry_some hfe
        have hvm : s.val = v ∧ s.meta = m := by
          have hsome : some (s.val, s.meta) = some (v, m) := hfound'
          cases hsome
          exact ⟨rfl, rfl⟩
        rw [hred]
        unfold tableFind bucketIdx
        rw [tableLoad_hashFn, tableLoad_length, tableLoad_buckets]
        simp only [List.length_replicate, List.getElem?_replicate]
        have hj2 : t.hashFn k % (2 * t.buckets.length) < 2 * t.buckets.length :=
          Nat.mod_lt _ (by omega)
        rw [if_pos hj2]
        obtain ⟨bj', hbj', hfil⟩ := hchar (t.hashFn k % (2 * t.buckets.length))
        have hjeq : t.hashFn k % (2 * t.buckets.length) % t.buckets.length =
            t.hashFn k % t.buckets.length :=
          Nat.mod_mod_of_dvd (t.hashFn k) ⟨2, Nat.mul_comm 2 t.buckets.length⟩
        have hbj'b0 : bj' = b0 := by
          rw [hjeq, hb0] at hbj'
          exact (Option.some.injEq _ _ ▸ hbj').symm
        subst hbj'b0
        have hWFb := hWF.1 bj' (by rw [hjeq] at hbj'; exact List.getElem?_mem hbj')
        have hoccf : ∀ e ∈ (dumpBucket bj').filter
            (fun e => t.hashFn e.key % (2 * t.buckets.length) =
              t.hashFn k % (2 * t.buckets.length)), e.key ≠ EMPTY_KEY :=
          fun e he => dumpBucket_occupied e (List.mem_filter.1 he).1
        have hnodupf : (((dumpBucket bj').filter
            (fun e => t.hashFn e.key % (2 * t.buckets.length) =
              t.hashFn k % (2 * t.buckets.length))).map Slot.key).Nodup :=
          ((List.filter_sublist _).map Slot.key).nodup (dumpBucket_keys_nodup hWFb.1)
        have hlef : ((dumpBucket bj').filter
            (fun e => t.hashFn e.key % (2 * t.buckets.length) =
              t.hashFn k % (2 * t.buckets.length))).length ≤ t.bucket_max_size := by
          calc ((dumpBucket bj').filter _).length
              ≤ (dumpBucket bj').length := List.length_filter_le _ _
            _ ≤ bj'.slots.length := dumpBucket_length_le bj'
            _ = t.bucket_max_size := hWFb.2
        show find (bucketLoad (emptyBucket t.bucket_max_size) _) k = some (v, m)
        rw [hfil]
        rw [bucketLoad_empty_find hk hoccf hnodupf hlef]
        have hfe2 : findEntry k ((dumpBucket bj').filter
            (fun e => t.hashFn e.key % (2 * t.buckets.length) =
              t.hashFn k % (2 * t.buckets.length))) = findEntry k (dumpBucket bj') := by
          apply findEntry_filter
          intro s' _ hs'k
          simp [hs'k]
        rw [hfe2]
        have hfe3 : findEntry k (dumpBucket bj') = findEntry k bj'.slots := by
          rw [dumpBucket_eq_filter]
          apply findEntry_filter
          intro s' _ hs'k
          simp only [decide_eq_true_eq]
          rw [hs'k]
          exact hk
        rw [hfe3, hfe]
        show some (s.val, s.meta) = some (v, m)
        rw [hvm.1, hvm.2]
  · -- capacity = buckets_num * bucket_max_size after resize
    rw [hred, tableLoad_capacity, tableLoad_length]
    simp [List.length_replicate]

/-- Closed witness for C7 at a concrete two-bucket table. -/
theorem reserve_preserves_entries_and_capacity_witness :
    (TableWF wtSmall ∧ wtSmall.capacity = wtSmall.buckets.length * wtSmall.bucket_max_size ∧
      0 < wtSmall.capacity ∧ 2 * wtSmall.capacity ≤ wtSmall.max_size) ∧
    (occupiedCount (reserve wtSmall (2 * wtSmall.capacity)) = occupiedCount wtSmall ∧
      (∀ k v m, tableFind wtSmall k = some (v, m) →
        tableFind (reserve wtSmall (2 * wtSmall.capacity)) k = some (v, m)) ∧
      (reserve wtSmall (2 * wtSmall.capacity)).capacity =
        (reserve wtSmall (2 * wtSmall.capacity)).buckets.length * wtSmall.bucket_max_size) :=
  ⟨⟨by decide, by decide, by decide, by decide⟩,
   reserve_preserves_entries_and_capacity wtSmall (by decide) (by decide) (by decide)
     (by decide)⟩

/-! ### Commutation of single-slot erases -/

theorem bucketExt {b₁ b₂ : Bucket} (h1 : b₁.slots = b₂.slots) (h2 : b₁.cur_meta = b₂.cur_meta)
    (h3 : b₁.min_meta = b₂.min_meta) (h4 : b₁.min_pos = b₂.min_pos) : b₁ = b₂ := by
  cases b₁
  cases b₂
  have h1' : _ = _ := h1
  have h2' : _ = _ := h2
  have h3' : _ = _ := h3
  have h4' : _ = _ := h4
  subst h1' h2' h3' h4'
  rfl

theorem getElem?_clearAt_eq (l : List Slot) (i : Nat) :
    (clearAt l i)[i]? = (l[i]?).map (fun s => { s with key := EMPTY_KEY }) := by
  cases h : l[i]? with
  | none =>
    have hid : clearAt l i = l := by
      unfold clearAt
      rw [h]
    rw [hid, h]
    rfl
  | some s =>
    rw [getElem?_clearAt_self h]
    rfl

theorem clearAt_comm (l : List Slot) {i j : Nat} (hij : i ≠ j) :
    clearAt (clearAt l i) j = clearAt (clearAt l j) i := by
  apply List.ext_getElem?
  intro m
  by_cases hmi : m = i
  · subst hmi
    have hL : (clearAt (clearAt l m) j)[m]? =
        (l[m]?).map (fun s => { s with key := EMPTY_KEY }) := by
      rw [getElem?_clearAt_ne _ (fun h => hij h.symm), getElem?_clearAt_eq]
    have hR : (clearAt (clearAt l j) m)[m]? =
        (l[m]?).map (fun s => { s with key := EMPTY_KEY }) := by
      rw [getElem?_clearAt_eq, getElem?_clearAt_ne _ (fun h => hij h.symm)]
    rw [hL, hR]
  · by_cases hmj : m = j
    · subst hmj
      have hL : (clearAt (clearAt l i) m)[m]? =
          (l[m]?).map (fun s => { s with key := EMPTY_KEY }) := by
        rw [getElem?_clearAt_eq, getElem?_clearAt_ne _ hij]
      have hR : (clearAt (clearAt l m) i)[m]? =
          (l[m]?).map (fun s => { s with key := EMPTY_KEY }) := by
        rw [getElem?_clearAt_ne _ (fun h => hij h), getElem?_clearAt_eq]
      rw [hL, hR]
    · rw [getElem?_clearAt_ne _ (fun h => hmj h.symm), getElem?_clearAt_ne _ (fun h => hmi h.symm),
        getElem?_clearAt_ne _ (fun h => hmi h.symm), getElem?_clearAt_ne _ (fun h => hmj h.symm)]

theorem eraseSlotAt_of_ne {b : Bucket} {i : Nat} (h : ¬i = b.min_pos) :
    eraseSlotAt b i = { b with slots := clearAt b.slots i } := by
  unfold eraseSlotAt
  rw [if_neg h]

theorem eraseSlotAt_of_eq {b : Bucket} {i : Nat} (h : i = b.min_pos) :
    eraseSlotAt b i = refresh_bucket_meta { b with slots := clearAt b.slots i } := by
  unfold eraseSlotAt
  rw [if_pos h]

theorem refresh_of_none {b : Bucket} (h : bucketMin (occList b.slots) = none) :
    refresh_bucket_meta b = { b with min_meta := MAX_META, min_pos := 0 } := by
  unfold refresh_bucket_meta
  rw [h]

theorem refresh_of_some {b : Bucket} {mm mp : Nat}
    (h : bucketMin (occList b.slots) = some (mm, mp)) :
    refresh_bucket_meta b = { b with min_meta := mm, min_pos := mp } := by
  unfold refresh_bucket_meta
  rw [h]

theorem refresh_congr {X Y : Bucket} (hs : X.slots = Y.slots) (hc : X.cur_meta = Y.cur_meta) :
    refresh_bucket_meta X = refresh_bucket_meta Y := by
  cases hbm : bucketMin (occList Y.slots) with
  | none =>
    rw [refresh_of_none (by rw [hs]; exact hbm), refresh_of_none hbm]
    exact bucketExt hs hc rfl rfl
  | some q =>
    obtain ⟨mm, mp⟩ := q
    rw [refresh_of_some (by rw [hs]; exact hbm), refresh_of_some hbm]
    exact bucketExt hs hc rfl rfl

theorem eraseSlotAt_comm_aux (b : Bucket) {i j : Nat} (hij : i ≠ j)
    (hip : i = b.min_pos) (hjp : ¬j = b.min_pos) :
    eraseSlotAt (eraseSlotAt b i) j = eraseSlotAt (eraseSlotAt b j) i := by
  have hb₂ : eraseSlotAt b j = { b with slots := clearAt b.slots j } := eraseSlotAt_of_ne hjp
  have hRHS : eraseSlotAt (eraseSlotAt b j) i =
      refresh_bucket_meta { b with slots := clearAt (clearAt b.slots j) i } := by
    rw [hb₂]
    exact eraseSlotAt_of_eq hip
  have hb₁ : eraseSlotAt b i = refresh_bucket_meta { b with slots := clearAt b.slots i } :=
    eraseSlotAt_of_eq hip
  have hbmR : ∀ r, bucketMin ((occList (clearAt b.slots i)).filter (fun p => p.1 ≠ j)) = r →
      bucketMin (occList (clearAt (clearAt b.slots j) i)) = r := by
    intro r hr
    rw [← clearAt_comm b.slots hij, occList_clearAt]
    exact hr
  cases hbm : bucketMin (occList (clearAt b.slots i)) with
  | none =>
    have hoccEmpty : occList (clearAt b.slots i) = [] := bucketMin_eq_none.1 hbm
    have hb₁' : eraseSlotAt b i =
        { b with slots := clearAt b.slots i, min_meta := MAX_META, min_pos := 0 } := by
      rw [hb₁, refresh_of_none hbm]
    have hbm2 : bucketMin (occList (clearAt (clearAt b.slots i) j)) = none := by
      rw [occList_clearAt, hoccEmpty]
      rfl
    have hbmR' : bucketMin (occList (clearAt (clearAt b.slots j) i)) = none := by
      apply hbmR
      rw [hoccEmpty]
      rfl
    rw [hRHS, refresh_of_none hbmR']
    by_cases hj0 : j = 0
    · rw [hb₁', eraseSlotAt_of_eq (show j = _ from hj0)]
      rw [refresh_of_none hbm2]
      exact bucketExt (clearAt_comm b.slots hij) rfl rfl rfl
    · rw [hb₁', eraseSlotAt_of_ne (show ¬j = _ from hj0)]
      exact bucketExt (clearAt_comm b.slots hij) rfl rfl rfl
  | some q =>
    obtain ⟨mm', mp'⟩ := q
    have hb₁' : eraseSlotAt b i =
        { b with slots := clearAt b.slots i, min_meta := mm', min_pos := mp' } := by
      rw [hb₁, refresh_of_some hbm]
    by_cases hjm : j = mp'
    · rw [hb₁', eraseSlotAt_of_eq (show j = _ from hjm), hRHS]
      apply refresh_congr
      · exact clearAt_comm b.slots hij
      · rfl
    · have hstab : bucketMin ((occList (clearAt b.slots i)).filter (fun p => p.1 ≠ j)) =
          some (mm', mp') :=
        bucketMin_filter_ne hbm (fun h => hjm h.symm)
      rw [hb₁', eraseSlotAt_of_ne (show ¬j = _ from hjm), hRHS,
        refresh_of_some (hbmR _ hstab)]
      exact bucketExt (clearAt_comm b.slots hij) rfl rfl rfl

theorem eraseSlotAt_comm (b : Bucket) {i j : Nat} (hij : i ≠ j) :
    eraseSlotAt (eraseSlotAt b i) j = eraseSlotAt (eraseSlotAt b j) i := by
  by_cases hip : i = b.min_pos
  · by_cases hjp : j = b.min_pos
    · exact absurd (hip.trans hjp.symm) hij
    · exact eraseSlotAt_comm_aux b hij hip hjp
  · by_cases hjp : j = b.min_pos
    · exact (eraseSlotAt_comm_aux b (fun h => hij h.symm) hjp hip).symm
    · rw [eraseSlotAt_of_ne hip, eraseSlotAt_of_ne hjp]
      rw [@eraseSlotAt_of_ne { b with slots := clearAt b.slots i } j hjp,
        @eraseSlotAt_of_ne { b with slots := clearAt b.slots j } i hip]
      exact bucketExt (clearAt_comm b.slots hij) rfl rfl rfl

/-! ### Commutation of key-level erases -/

theorem erase_fst_empty (b : Bucket) : (erase b EMPTY_KEY).1 = b := by
  simp [erase]

theorem erase_fst_not_found {b : Bucket} {k : Nat} (hk : ¬k = EMPTY_KEY)
    (h : firstKeyIdx k b.slots = none) : (erase b k).1 = b := by
  simp [erase, hk, h]

theorem erase_fst_found {b : Bucket} {k i : Nat} (hk : ¬k = EMPTY_KEY)
    (h : firstKeyIdx k b.slots = some i) : (erase b k).1 = eraseSlotAt b i := by
  simp [erase, hk, h]

theorem firstKeyIdx_set_other {k : Nat} :
    ∀ {l : List Slot} {i : Nat} {s t : Slot}, l[i]? = some s → s.key ≠ k → t.key ≠ k →
      firstKeyIdx k (l.set i t) = firstKeyIdx k l := by
  intro l
  induction l with
  | nil => intro i s t h _ _; simp at h
  | cons a rest ih =>
    intro i s t h hs ht
    cases i with
    | zero =>
      have ha : a = s := by simpa using h
      subst ha
      show firstKeyIdx k (t :: rest) = firstKeyIdx k (a :: rest)
      unfold firstKeyIdx
      rw [if_neg ht, if_neg hs]
    | succ i =>
      simp only [List.getElem?_cons_succ] at h
      show firstKeyIdx k (a :: rest.set i t) = firstKeyIdx k (a :: rest)
      unfold firstKeyIdx
      by_cases hak : a.key = k
      · rw [if_pos hak, if_pos hak]
      · rw [if_neg hak, if_neg hak, ih h hs ht]

theorem firstKeyIdx_clearAt {k : Nat} {l : List Slot} {i : Nat}
    (hk : k ≠ EMPTY_KEY) (hno : ∀ s, l[i]? = some s → s.key ≠ k) :
    firstKeyIdx k (clearAt l i) = firstKeyIdx k l := by
  unfold clearAt
  cases h : l[i]? with
  | none => rfl
  | some s =>
    exact firstKeyIdx_set_other h (hno s h) (fun he => hk (show EMPTY_KEY = k from he).symm)

theorem firstKeyIdx_erase_other {b : Bucket} {k k' : Nat} (hk : k ≠ EMPTY_KEY)
    (hkk : k' ≠ k) :
    firstKeyIdx k ((erase b k').1).slots = firstKeyIdx k b.slots := by
  by_cases h'e : k' = EMPTY_KEY
  · rw [h'e, erase_fst_empty]
  · cases hf : firstKeyIdx k' b.slots with
    | none => rw [erase_fst_not_found h'e hf]
    | some i =>
      rw [erase_fst_found h'e hf]
      rw [eraseSlotAt_slots]
      obtain ⟨s, hs, hsk⟩ := firstKeyIdx_some hf
      apply firstKeyIdx_clearAt hk
      intro s' hs'
      rw [hs] at hs'
      cases hs'
      rw [hsk]
      exact hkk

theorem erase_comm (b : Bucket) (k₁ k₂ : Nat) :
    (erase (erase b k₁).1 k₂).1 = (erase (erase b k₂).1 k₁).1 := by
  by_cases h12 : k₁ = k₂
  · rw [h12]
  by_cases h1e : k₁ = EMPTY_KEY
  · rw [h1e, erase_fst_empty, erase_fst_empty]
  by_cases h2e : k₂ = EMPTY_KEY
  · rw [h2e, erase_fst_empty, erase_fst_empty]
  cases hf1 : firstKeyIdx k₁ b.slots with
  | none =>
    have hL : (erase b k₁).1 = b := erase_fst_not_found h1e hf1
    have hf1' : firstKeyIdx k₁ ((erase b k₂).1).slots = none := by
      rw [firstKeyIdx_erase_other h1e (fun h => h12 h.symm)]
      exact hf1
    rw [hL, erase_fst_not_found h1e hf1']
  | some i₁ =>
    have hL : (erase b k₁).1 = eraseSlotAt b i₁ := erase_fst_found h1e hf1
    cases hf2 : firstKeyIdx k₂ b.slots with
    | none =>
      have hR : (erase b k₂).1 = b := erase_fst_not_found h2e hf2
      have hf2' : firstKeyIdx k₂ ((erase b k₁).1).slots = none := by
        rw [firstKeyIdx_erase_other h2e h12]
        exact hf2
      rw [hR, erase_fst_not_found h2e hf2']
    | some i₂ =>
      have hR : (erase b k₂).1 = eraseSlotAt b i₂ := erase_fst_found h2e hf2
      obtain ⟨s₁, hs₁, hs₁k⟩ := firstKeyIdx_some hf1
      obtain ⟨s₂, hs₂, hs₂k⟩ := firstKeyIdx_some hf2
      have hii : i₁ ≠ i₂ := by
        intro he
        rw [he, hs₂] at hs₁
        cases hs₁
        exact h12 (hs₁k ▸ hs₂k ▸ rfl)
      have hf2' : firstKeyIdx k₂ ((erase b k₁).1).slots = some i₂ := by
        rw [firstKeyIdx_erase_other h2e h12]
        exact hf2
      have hf1' : firstKeyIdx k₁ ((erase b k₂).1).slots = some i₁ := by
        rw [firstKeyIdx_erase_other h1e (fun h => h12 h.symm)]
        exact hf1
      rw [erase_fst_found h2e hf2', hL, erase_fst_found h1e hf1', hR]
      exact eraseSlotAt_comm b hii

/-! ### The matched entries of the erase-if scan -/

theorem matchedGo_step_none {pred : EraseIfPredictInternal} {pat thr n i : Nat}
    {l : List Slot} (h : l[i]? = none) :
    matchedGo pred pat thr (n + 1) i l = [] := by
  simp [matchedGo, h]

theorem matchedGo_step_free {pred : EraseIfPredictInternal} {pat thr n i : Nat}
    {l : List Slot} {s : Slot} (h : l[i]? = some s) (hk : s.key = EMPTY_KEY) :
    matchedGo pred pat thr (n + 1) i l = matchedGo pred pat thr n (i + 1) l := by
  simp [matchedGo, h, hk]

theorem matchedGo_step_hit {pred : EraseIfPredictInternal} {pat thr n i : Nat}
    {l : List Slot} {s : Slot} (h : l[i]? = some s) (hk : ¬s.key = EMPTY_KEY)
    (hd : (pred s.key s.meta pat thr).1 = true) :
    matchedGo pred pat thr (n + 1) i l = (i, s) :: matchedGo pred pat thr n (i + 1) l := by
  simp [matchedGo, h, hk, hd]

theorem matchedGo_step_miss {pred : EraseIfPredictInternal} {pat thr n i : Nat}
    {l : List Slot} {s : Slot} (h : l[i]? = some s) (hk : ¬s.key = EMPTY_KEY)
    (hd : ¬(pred s.key s.meta pat thr).1 = true) :
    matchedGo pred pat thr (n + 1) i l = matchedGo pred pat thr n (i + 1) l := by
  simp [matchedGo, h, hk, hd]

theorem matchedGo_congr {pred : EraseIfPredictInternal} {pat thr : Nat} :
    ∀ {n i : Nat} {l l' : List Slot},
      (∀ j, i ≤ j → l[j]? = l'[j]?) →
      matchedGo pred pat thr n i l = matchedGo pred pat thr n i l' := by
  intro n
  induction n with
  | zero => intro i l l' _; rfl
  | succ n ih =>
    intro i l l' hagree
    have hi : l[i]? = l'[i]? := hagree i (Nat.le_refl i)
    have htail : ∀ j, i + 1 ≤ j → l[j]? = l'[j]? :=
      fun j hj => hagree j (by omega)
    cases h : l'[i]? with
    | none => rw [matchedGo_step_none (hi.trans h), matchedGo_step_none h]
    | some s =>
      by_cases hk : s.key = EMPTY_KEY
      · rw [matchedGo_step_free (hi.trans h) hk, matchedGo_step_free h hk, ih htail]
      · by_cases hd : (pred s.key s.meta pat thr).1 = true
        · rw [matchedGo_step_hit (hi.trans h) hk hd, matchedGo_step_hit h hk hd, ih htail]
        · rw [matchedGo_step_miss (hi.trans h) hk hd, matchedGo_step_miss h hk hd, ih htail]

theorem eraseIfGo_eq_fold {pred : EraseIfPredictInternal} {pat thr : Nat}
    (hpure : ∀ k m p t, (pred k m p t).2 = m) :
    ∀ (n i : Nat) (b : Bucket) (c : Nat),
      eraseIfGo pred pat thr n i (b, c) =
        ((matchedGo pred pat thr n i b.slots).foldl (fun b p => eraseSlotAt b p.1) b,
         c + (matchedGo pred pat thr n i b.slots).length) := by
  intro n
  induction n with
  | zero =>
    intro i b c
    rfl
  | succ n ih =>
    intro i b c
    cases hbi : b.slots[i]? with
    | none =>
      rw [eraseIfGo_step_none hbi, matchedGo_step_none hbi]
      rfl
    | some s =>
      by_cases hk : s.key = EMPTY_KEY
      · rw [eraseIfGo_step_free hbi hk, matchedGo_step_free hbi hk, ih]
      · have hr2 : (pred s.key s.meta pat thr).2 = s.meta := hpure _ _ _ _
        have hb₁ : ({ b with slots := setMetaAt b.slots i (pred s.key s.meta pat thr).2 } :
            Bucket) = b := by
          rw [hr2, setMetaAt_same hbi]
        by_cases hd : (pred s.key s.meta pat thr).1 = true
        · rw [eraseIfGo_step_hit hbi hk hd, hb₁, matchedGo_step_hit hbi hk hd]
          rw [ih (i + 1) (eraseSlotAt b i) (c + 1)]
          have hcongr : matchedGo pred pat thr n (i + 1) (eraseSlotAt b i).slots =
              matchedGo pred pat thr n (i + 1) b.slots := by
            apply matchedGo_congr
            intro j hj
            rw [eraseSlotAt_slots, getElem?_clearAt_ne _ (by omega)]
          rw [hcongr, List.foldl_cons, List.length_cons]
          have harith : c + 1 + (matchedGo pred pat thr n (i + 1) b.slots).length =
              c + ((matchedGo pred pat thr n (i + 1) b.slots).length + 1) := by omega
          rw [harith]
        · rw [eraseIfGo_step_miss hbi hk hd, hb₁, matchedGo_step_miss hbi hk hd, ih]

theorem occListFrom_succ_shift :
    ∀ (l : List Slot) (n : Nat),
      occListFrom (n + 1) l = (occListFrom n l).map (fun p => (p.1 + 1, p.2)) := by
  intro l
  induction l with
  | nil => intro n; rfl
  | cons s rest ih =>
    intro n
    rw [occListFrom_cons, occListFrom_cons]
    by_cases h : s.key = EMPTY_KEY
    · rw [if_pos h, if_pos h, ih]
    · rw [if_neg h, if_neg h, List.map_cons, ih]

theorem matchedGo_shift {pred : EraseIfPredictInternal} {pat thr : Nat} :
    ∀ (n i : Nat) (s : Slot) (rest : List Slot),
      matchedGo pred pat thr n (i + 1) (s :: rest) =
        (matchedGo pred pat thr n i rest).map (fun p => (p.1 + 1, p.2)) := by
  intro n
  induction n with
  | zero => intro i s rest; rfl
  | succ n ih =>
    intro i s rest
    have hacc : (s :: rest)[i + 1]? = rest[i]? := List.getElem?_cons_succ
    cases hbi : rest[i]? with
    | none =>
      rw [matchedGo_step_none (hacc.trans hbi), matchedGo_step_none hbi]
      rfl
    | some t =>
      by_cases hk : t.key = EMPTY_KEY
      · rw [matchedGo_step_free (hacc.trans hbi) hk, matchedGo_step_free hbi hk, ih]
      · by_cases hd : (pred t.key t.meta pat thr).1 = true
        · rw [matchedGo_step_hit (hacc.trans hbi) hk hd, matchedGo_step_hit hbi hk hd,
            List.map_cons, ih]
        · rw [matchedGo_step_miss (hacc.trans hbi) hk hd, matchedGo_step_miss hbi hk hd, ih]

theorem matchedGo_full {pred : EraseIfPredictInternal} {pat thr : Nat} :
    ∀ (l : List Slot),
      matchedGo pred pat thr l.length 0 l =
        (occList l).filter (fun p => (pred p.2.key p.2.meta pat thr).1) := by
  intro l
  induction l with
  | nil => rfl
  | cons s rest ih =>
    simp only [List.length_cons]
    have hbi : (s :: rest)[0]? = some s := by simp
    have hoccs : occList (s :: rest) =
        if s.key = EMPTY_KEY then (occList rest).map (fun p => (p.1 + 1, p.2))
        else (0, s) :: (occList rest).map (fun p => (p.1 + 1, p.2)) := by
      show occListFrom 0 (s :: rest) = _
      rw [occListFrom_cons, occListFrom_succ_shift]
      rfl
    have hmapfilter :
        ((occList rest).filter (fun p => (pred p.2.key p.2.meta pat thr).1)).map
            (fun p => (p.1 + 1, p.2)) =
          ((occList rest).map (fun p => (p.1 + 1, p.2))).filter
            (fun p => (pred p.2.key p.2.meta pat thr).1) := by
      rw [List.filter_map]
      rfl
    by_cases hk : s.key = EMPTY_KEY
    · rw [matchedGo_step_free hbi hk, matchedGo_shift, ih, hoccs, if_pos hk]
      exact hmapfilter
    · by_cases hd : (pred s.key s.meta pat thr).1 = true
      · rw [matchedGo_step_hit hbi hk hd, matchedGo_shift, ih, hoccs, if_neg hk,
          List.filter_cons, if_pos hd]
        rw [hmapfilter]
      · rw [matchedGo_step_miss hbi hk hd, matchedGo_shift, ih, hoccs, if_neg hk,
          List.filter_cons, if_neg hd]
        exact hmapfilter

/-! ### Folding single-slot erases equals folding key erases -/

theorem firstKeyIdx_eq_of_unique {l : List Slot}
    (hWF : ((occList l).map (fun p => p.2.key)).Nodup)
    {i : Nat} {s : Slot} (hi : l[i]? = some s) (hocc : s.key ≠ EMPTY_KEY) :
    firstKeyIdx s.key l = some i := by
  cases hfi : firstKeyIdx s.key l with
  | none => exact absurd rfl (firstKeyIdx_none.1 hfi s (List.getElem?_mem hi))
  | some j =>
    obtain ⟨t, ht, htk⟩ := firstKeyIdx_some hfi
    have hji : j = i := occKey_unique hWF ht hi (by rw [htk]; exact hocc) hocc htk
    rw [hji]

theorem bucketWF_eraseSlotAt {b : Bucket} (hWF : BucketWF b) (i : Nat) :
    BucketWF (eraseSlotAt b i) := by
  show ((occList (eraseSlotAt b i).slots).map (fun p => p.2.key)).Nodup
  rw [eraseSlotAt_slots, occList_clearAt]
  exact ((List.filter_sublist _).map _).nodup hWF

theorem enumFrom_indices_nodup :
    ∀ (l : List Slot) (n : Nat), ((enumFrom n l).map Prod.fst).Nodup := by
  intro l
  induction l with
  | nil => intro n; simp [enumFrom]
  | cons s rest ih =>
    intro n
    rw [enumFrom_cons, List.map_cons, List.nodup_cons]
    constructor
    · intro hmem
      obtain ⟨p, hp, hpn⟩ := List.mem_map.1 hmem
      have := (mem_enumFrom hp).1
      omega
    · exact ih (n + 1)

theorem occList_indices_nodup (l : List Slot) : ((occList l).map Prod.fst).Nodup := by
  show (((enumFrom 0 l).filter _).map Prod.fst).Nodup
  exact ((List.filter_sublist _).map _).nodup (enumFrom_indices_nodup l 0)

theorem foldKeys_eq_foldIdx :
    ∀ (entries : List (Nat × Slot)) (b : Bucket),
      BucketWF b →
      (∀ p ∈ entries, b.slots[p.1]? = some p.2 ∧ p.2.key ≠ EMPTY_KEY) →
      ((entries.map Prod.fst).Nodup) →
      (entries.map (fun p => p.2.key)).foldl (fun b k => (erase b k).1) b =
        entries.foldl (fun b p => eraseSlotAt b p.1) b := by
  intro entries
  induction entries with
  | nil => intro b _ _ _; rfl
  | cons p rest ih =>
    obtain ⟨i, s⟩ := p
    intro b hWF hin hidx
    obtain ⟨hget, hocc⟩ := hin (i, s) (List.mem_cons_self _ _)
    have hfi : firstKeyIdx s.key b.slots = some i := firstKeyIdx_eq_of_unique hWF hget hocc
    rw [List.map_cons, List.foldl_cons, List.foldl_cons]
    rw [erase_fst_found hocc hfi]
    rw [List.map_cons, List.nodup_cons] at hidx
    apply ih
    · exact bucketWF_eraseSlotAt hWF i
    · intro q hq
      obtain ⟨hg, ho⟩ := hin q (List.mem_cons_of_mem _ hq)
      refine ⟨?_, ho⟩
      rw [eraseSlotAt_slots, getElem?_clearAt_ne _ ?_]
      · exact hg
      · intro he
        apply hidx.1
        show i ∈ rest.map Prod.fst
        rw [he]
        exact List.mem_map_of_mem Prod.fst hq
    · exact hidx.2

/-- For a meta-preserving predicate on a well-formed bucket, the
bulk conditional erase equals folding the plain single-key erase over
the matching keys in slot order. -/
theorem erase_if_fst_eq_foldKeys {pred : EraseIfPredictInternal} {pat thr : Nat}
    (hpure : ∀ k m p t, (pred k m p t).2 = m) (b : Bucket) (hWF : BucketWF b) :
    (erase_if pred pat thr b).1 =
      (matchingKeys pred pat thr b).foldl (fun b k => (erase b k).1) b := by
  unfold erase_if
  rw [eraseIfGo_eq_fold hpure b.slots.length 0 b 0]
  show (matchedGo pred pat thr b.slots.length 0 b.slots).foldl (fun b p => eraseSlotAt b p.1) b
    = _
  rw [matchedGo_full]
  unfold matchingKeys
  refine (foldKeys_eq_foldIdx _ b hWF ?_ ?_).symm
  · intro q hq
    have hq' := (List.mem_filter.1 hq).1
    have := mem_occList.1 (show (q.1, q.2) ∈ occList b.slots from hq')
    exact ⟨this.1, this.2⟩
  · exact ((List.filter_sublist _).map Prod.fst).nodup (occList_indices_nodup b.slots)

/-! ### Table-level erase: basic shape and commutation -/

theorem tableExt {t₁ t₂ : Table} (h0 : t₁.hashFn = t₂.hashFn) (h1 : t₁.buckets = t₂.buckets)
    (h2 : t₁.capacity = t₂.capacity) (h3 : t₁.max_size = t₂.max_size)
    (h4 : t₁.bucket_max_size = t₂.bucket_max_size)
    (h5 : t₁.max_hbm_for_vectors = t₂.max_hbm_for_vectors) : t₁ = t₂ := by
  cases t₁
  cases t₂
  have h0' : _ = _ := h0
  have h1' : _ = _ := h1
  have h2' : _ = _ := h2
  have h3' : _ = _ := h3
  have h4' : _ = _ := h4
  have h5' : _ = _ := h5
  subst h0' h1' h2' h3' h4' h5'
  rfl

theorem tableErase_fst_none {t : Table} {k : Nat}
    (h : t.buckets[bucketIdx t k]? = none) : (tableErase t k).1 = t := by
  simp [tableErase, h]

theorem tableErase_fst_some {t : Table} {k : Nat} {b : Bucket}
    (h : t.buckets[bucketIdx t k]? = some b) :
    (tableErase t k).1 = { t with buckets := t.buckets.set (bucketIdx t k) (erase b k).1 } := by
  simp [tableErase, h]

theorem tableErase_config (t : Table) (k : Nat) :
    (tableErase t k).1.hashFn = t.hashFn ∧
    (tableErase t k).1.buckets.length = t.buckets.length ∧
    (tableErase t k).1.capacity = t.capacity ∧
    (tableErase t k).1.max_size = t.max_size ∧
    (tableErase t k).1.bucket_max_size = t.bucket_max_size ∧
    (tableErase t k).1.max_hbm_for_vectors = t.max_hbm_for_vectors := by
  cases hb : t.buckets[bucketIdx t k]? with
  | none => rw [tableErase_fst_none hb]; exact ⟨rfl, rfl, rfl, rfl, rfl, rfl⟩
  | some b =>
    rw [tableErase_fst_some hb]
    exact ⟨rfl, by simp, rfl, rfl, rfl, rfl⟩

theorem tableErase_bucketIdx (t : Table) (k k' : Nat) :
    bucketIdx ((tableErase t k).1) k' = bucketIdx t k' := by
  unfold bucketIdx
  rw [(tableErase_config t k).1, (tableErase_config t k).2.1]

theorem tableErase_getElem?_none {t : Table} {k j : Nat} (h : t.buckets[j]? = none) :
    ((tableErase t k).1).buckets[j]? = none := by
  rw [List.getElem?_eq_none_iff] at h ⊢
  rw [(tableErase_config t k).2.1]
  exact h

theorem tableErase_comm (t : Table) (k₁ k₂ : Nat) :
    (tableErase (tableErase t k₁).1 k₂).1 = (tableErase (tableErase t k₂).1 k₁).1 := by
  cases hb₁ : t.buckets[bucketIdx t k₁]? with
  | none =>
    rw [tableErase_fst_none hb₁]
    have hn : ((tableErase t k₂).1).buckets[bucketIdx ((tableErase t k₂).1) k₁]? = none := by
      rw [tableErase_bucketIdx]
      exact tableErase_getElem?_none hb₁
    rw [tableErase_fst_none hn]
  | some b₁ =>
    cases hb₂ : t.buckets[bucketIdx t k₂]? with
    | none =>
      rw [tableErase_fst_none hb₂]
      have hn : ((tableErase t k₁).1).buckets[bucketIdx ((tableErase t k₁).1) k₂]? = none := by
        rw [tableErase_bucketIdx]
        exact tableErase_getElem?_none hb₂
      rw [tableErase_fst_none hn]
    | some b₂ =>
      have hlt₁ : bucketIdx t k₁ < t.buckets.length := (List.getElem?_eq_some_iff.1 hb₁).1
      have hlt₂ : bucketIdx t k₂ < t.buckets.length := (List.getElem?_eq_some_iff.1 hb₂).1
      by_cases hii : bucketIdx t k₁ = bucketIdx t k₂
      · have hbb : b₂ = b₁ := by
          rw [hii, hb₂] at hb₁
          exact Option.some.inj hb₁
        subst hbb
        have hL1 : (tableErase t k₁).1 =
            { t with buckets := t.buckets.set (bucketIdx t k₁) (erase b₂ k₁).1 } :=
          tableErase_fst_some hb₁
        have hR1 : (tableErase t k₂).1 =
            { t with buckets := t.buckets.set (bucketIdx t k₂) (erase b₂ k₂).1 } :=
          tableErase_fst_some hb₂
        have hL2 : ((tableErase t k₁).1).buckets[bucketIdx ((tableErase t k₁).1) k₂]? =
            some (erase b₂ k₁).1 := by
          rw [tableErase_bucketIdx, hL1, ← hii]
          exact List.getElem?_set_self hlt₁
        have hR2 : ((tableErase t k₂).1).buckets[bucketIdx ((tableErase t k₂).1) k₁]? =
            some (erase b₂ k₂).1 := by
          rw [tableErase_bucketIdx, hR1, hii]
          exact List.getElem?_set_self hlt₂
        rw [tableErase_fst_some hL2, tableErase_fst_some hR2,
          tableErase_bucketIdx t k₁ k₂, tableErase_bucketIdx t k₂ k₁, hL1, hR1]
        apply tableExt
        · rfl
        · show (t.buckets.set (bucketIdx t k₁) (erase b₂ k₁).1).set (bucketIdx t k₂)
              (erase (erase b₂ k₁).1 k₂).1 =
            (t.buckets.set (bucketIdx t k₂) (erase b₂ k₂).1).set (bucketIdx t k₁)
              (erase (erase b₂ k₂).1 k₁).1
          rw [hii, List.set_set, List.set_set, erase_comm b₂ k₁ k₂]
        · rfl
        · rfl
        · rfl
        · rfl
      · have hL1 : (tableErase t k₁).1 =
            { t with buckets := t.buckets.set (bucketIdx t k₁) (erase b₁ k₁).1 } :=
          tableErase_fst_some hb₁
        have hR1 : (tableErase t k₂).1 =
            { t with buckets := t.buckets.set (bucketIdx t k₂) (erase b₂ k₂).1 } :=
          tableErase_fst_some hb₂
        have hL2 : ((tableErase t k₁).1).buckets[bucketIdx ((tableErase t k₁).1) k₂]? =
            some b₂ := by
          rw [tableErase_bucketIdx, hL1]
          show (t.buckets.set (bucketIdx t k₁) (erase b₁ k₁).1)[bucketIdx t k₂]? = some b₂
          rw [List.getElem?_set_ne hii]
          exact hb₂
        have hR2 : ((tableErase t k₂).1).buckets[bucketIdx ((tableErase t k₂).1) k₁]? =
            some b₁ := by
          rw [tableErase_bucketIdx, hR1]
          show (t.buckets.set (bucketIdx t k₂) (erase b₂ k₂).1)[bucketIdx t k₁]? = some b₁
          rw [List.getElem?_set_ne (fun h => hii h.symm)]
          exact hb₁
        rw [tableErase_fst_some hL2, tableErase_fst_some hR2,
          tableErase_bucketIdx t k₁ k₂, tableErase_bucketIdx t k₂ k₁, hL1, hR1]
        apply tableExt
        · rfl
        · show (t.buckets.set (bucketIdx t k₁) (erase b₁ k₁).1).set (bucketIdx t k₂)
              (erase b₂ k₂).1 =
            (t.buckets.set (bucketIdx t k₂) (erase b₂ k₂).1).set (bucketIdx t k₁)
              (erase b₁ k₁).1
          exact List.set_comm _ _ _ hii
        · rfl
        · rfl
        · rfl
        · rfl

/-! ### Table-level erase folds -/

theorem eraseFold_config :
    ∀ (ks : List Nat) (t : Table),
      (ks.foldl (fun t k => (tableErase t k).1) t).hashFn = t.hashFn ∧
      (ks.foldl (fun t k => (tableErase t k).1) t).buckets.length = t.buckets.length ∧
      (ks.foldl (fun t k => (tableErase t k).1) t).capacity = t.capacity ∧
      (ks.foldl (fun t k => (tableErase t k).1) t).max_size = t.max_size ∧
      (ks.foldl (fun t k => (tableErase t k).1) t).bucket_max_size = t.bucket_max_size ∧
      (ks.foldl (fun t k => (tableErase t k).1) t).max_hbm_for_vectors =
        t.max_hbm_for_vectors := by
  intro ks
  induction ks with
  | nil => intro t; exact ⟨rfl, rfl, rfl, rfl, rfl, rfl⟩
  | cons k rest ih =>
    intro t
    rw [List.foldl_cons]
    obtain ⟨ih1, ih2, ih3, ih4, ih5, ih6⟩ := ih ((tableErase t k).1)
    obtain ⟨s1, s2, s3, s4, s5, s6⟩ := tableErase_config t k
    exact ⟨ih1.trans s1, ih2.trans s2, ih3.trans s3, ih4.trans s4,
      ih5.trans s5, ih6.trans s6⟩

theorem eraseFold_buckets :
    ∀ (ks : List Nat) (t : Table) (j : Nat),
      (ks.foldl (fun t k => (tableErase t k).1) t).buckets[j]? =
        (t.buckets[j]?).map (fun b =>
          (ks.filter (fun k => t.hashFn k % t.buckets.length = j)).foldl
            (fun b k => (erase b k).1) b) := by
  intro ks
  induction ks with
  | nil =>
    intro t j
    show t.buckets[j]? = _
    cases t.buckets[j]? <;> rfl
  | cons k rest ih =>
    intro t j
    rw [List.foldl_cons, ih]
    rw [(tableErase_config t k).1, (tableErase_config t k).2.1]
    rw [List.filter_cons]
    by_cases hkj : t.hashFn k % t.buckets.length = j
    · rw [if_pos (by simpa using hkj)]
      have hidx : bucketIdx t k = j := hkj
      cases hb : t.buckets[j]? with
      | none =>
        rw [tableErase_fst_none (by rw [hidx]; exact hb), hb]
        rfl
      | some b =>
        rw [tableErase_fst_some (by rw [hidx]; exact hb)]
        have hlt : j < t.buckets.length := (List.getElem?_eq_some_iff.1 hb).1
        simp only [hidx, List.getElem?_set_self hlt, hb]
        rfl
    · rw [if_neg (by simpa using hkj)]
      cases hb : t.buckets[bucketIdx t k]? with
      | none => rw [tableErase_fst_none hb]
      | some b =>
        rw [tableErase_fst_some hb]
        simp only [List.getElem?_set_ne (show bucketIdx t k ≠ j from hkj)]

theorem mem_matchingKeys_occ {pred : EraseIfPredictInternal} {pat thr : Nat} {b : Bucket}
    {k : Nat} (hk : k ∈ matchingKeys pred pat thr b) :
    ∃ p ∈ occList b.slots, p.2.key = k := by
  unfold matchingKeys at hk
  obtain ⟨p, hp, hpk⟩ := List.mem_map.1 hk
  exact ⟨p, (List.mem_filter.1 hp).1, hpk⟩

theorem eraseFold_matching_eq_eraseIf {pred : EraseIfPredictInternal} {pat thr : Nat}
    (hpure : ∀ k m p t, (pred k m p t).2 = m) (t : Table) (hWF : TableWF t) :
    (tableMatchingKeys pred pat thr t).foldl (fun t k => (tableErase t k).1) t =
      (tableEraseIf pred pat thr t).1 := by
  apply tableExt
  · exact (eraseFold_config _ t).1
  · apply List.ext_getElem?
    intro j
    rw [eraseFold_buckets]
    rw [show (tableEraseIf pred pat thr t).1.buckets =
      t.buckets.map (fun b => (erase_if pred pat thr b).1) from rfl]
    rw [List.getElem?_map]
    cases hb : t.buckets[j]? with
    | none => rfl
    | some b =>
      show some _ = some _
      rw [Option.some.injEq]
      unfold tableMatchingKeys
      have hj : j < t.buckets.length := (List.getElem?_eq_some_iff.1 hb).1
      have hgetD : t.buckets.getD j (emptyBucket 0) = b := by
        rw [List.getD_eq_getElem?_getD, hb]
        rfl
      have hroute : ∀ (i : Nat) (d : List Nat),
          (t.buckets.map (fun b => matchingKeys pred pat thr b))[i]? = some d →
          ∀ e ∈ d, decide (t.hashFn e % t.buckets.length = j) = true → 0 + i = j := by
        intro i d hd e he hpe
        rw [List.getElem?_map] at hd
        cases hbi : t.buckets[i]? with
        | none => rw [hbi] at hd; simp at hd
        | some bi =>
          rw [hbi] at hd
          have hmem : e ∈ matchingKeys pred pat thr bi := by
            have hd' : matchingKeys pred pat thr bi = d := by simpa using hd
            rw [hd']
            exact he
          obtain ⟨p, hp, hpk⟩ := mem_matchingKeys_occ hmem
          have hi : i < t.buckets.length := (List.getElem?_eq_some_iff.1 hbi).1
          have hgetDi : t.buckets.getD i (emptyBucket 0) = bi := by
            rw [List.getD_eq_getElem?_getD, hbi]
            rfl
          have hplace := hWF.2 i hi p (by rw [hgetDi]; exact hp)
          have hej : t.hashFn e % t.buckets.length = j := by simpa using hpe
          rw [hpk] at hplace
          omega
      rw [flatten_filter_single (fun k => decide (t.hashFn k % t.buckets.length = j))
        (t.buckets.map (fun b => matchingKeys pred pat thr b)) 0 j hroute]
      have hgetDj : (t.buckets.map (fun b => matchingKeys pred pat thr b)).getD (j - 0) [] =
          matchingKeys pred pat thr b := by
        rw [List.getD_eq_getElem?_getD, List.getElem?_map, Nat.sub_zero, hb]
        rfl
      rw [hgetDj]
      have hfix : (matchingKeys pred pat thr b).filter
          (fun k => decide (t.hashFn k % t.buckets.length = j)) =
          matchingKeys pred pat thr b := by
        apply List.filter_eq_self.2
        intro a ha
        obtain ⟨p, hp, hpk⟩ := mem_matchingKeys_occ ha
        have hplace := hWF.2 j hj p (by rw [hgetD]; exact hp)
        rw [hpk] at hplace
        simpa using hplace
      rw [hfix]
      have hbWF : BucketWF b := (hWF.1 b (List.getElem?_mem hb)).1
      exact (erase_if_fst_eq_foldKeys hpure b hbWF).symm
  · exact (eraseFold_config _ t).2.2.1
  · exact (eraseFold_config _ t).2.2.2.1
  · exact (eraseFold_config _ t).2.2.2.2.1
  · exact (eraseFold_config _ t).2.2.2.2.2

/-- C4: counterexample to the unamended claim. The source typedef
`EraseIfPredictInternal` (types.cuh lines 78-84) passes the stored meta
by mutable reference, so a predicate may mutate it: with `bumpMetaPred`
no key matches, so erasing each matching key independently leaves the
table unchanged, yet `erase_if` bumps a stored meta. -/
theorem erase_if_independent_erases_counterexample :
    ((tableMatchingKeys bumpMetaPred 0 0 wtSmall).foldl
        (fun t k => (tableErase t k).1) wtSmall = wtSmall) ∧
    (((tableEraseIf bumpMetaPred 0 0 wtSmall).1.buckets.getD 0 (emptyBucket 0)).slots.getD 0
        emptySlot).meta ≠
      ((wtSmall.buckets.getD 0 (emptyBucket 0)).slots.getD 0 emptySlot).meta :=
  ⟨rfl, by decide⟩

/-- C4 (amended): order-independence of bulk conditional erase. For every
meta-preserving predicate, on a well-formed table the state produced by
`erase_if` equals the state produced by independently erasing each key
whose occupied slot satisfies the predicate, and this state is the same
for every evaluation order of the matching keys. -/
theorem erase_if_eq_erases_any_order (pred : EraseIfPredictInternal) (pat thr : Nat)
    (t : Table) (hpure : ∀ k m p th, (pred k m p th).2 = m) (hWF : TableWF t)
    (l : List Nat) (hperm : l.Perm (tableMatchingKeys pred pat thr t)) :
    l.foldl (fun t k => (tableErase t k).1) t = (tableEraseIf pred pat thr t).1 := by
  rw [List.Perm.foldl_eq' hperm (fun x _ y _ z => tableErase_comm z x y) t]
  exact eraseFold_matching_eq_eraseIf hpure t hWF

/-- C4 witness: on the two-bucket fixture with the pure below-threshold
predicate, erasing the single matching key 2 agrees with `erase_if`. -/
theorem erase_if_eq_erases_any_order_witness :
    [2].foldl (fun t k => (tableErase t k).1) wtSmall =
      (tableEraseIf belowThresholdPred 0 6 wtSmall).1 :=
  erase_if_eq_erases_any_order belowThresholdPred 0 6 wtSmall
    (fun _ _ _ _ => rfl) (by decide) [2] (by decide)

end MerlinKV
